import Mathlib

/-!
Spots-in-area handler (`golang.go`).

A shallow embedding of the single request handler of the repository and of the
geometry helper it calls, followed by the properties of the handler's
validation, query construction, ranking and serialisation.

Modelling conventions:

* `float64` is modelled by `Float64`: a rational number, the negative zero, or
  one of the three special values `+Inf`, `-Inf`, `NaN`.  Every arithmetic
  operation computes the exact result and rounds it to the nearest value with
  53 significant binary digits, halves to even, as IEEE-754 binary64 does:
  results of magnitude `2^1024 - 2^970` and more overflow to an infinity,
  results below `2^-1022` are rounded on the subnormal grid of spacing
  `2^-1074`, and a zero result carries its sign.  Each operation of the source
  is rounded on its own (a product and the sum that uses it are not fused).
  The type also holds rationals that no `float64` equals; the operations treat
  them like any other operand, and the properties proved hold for them too.
* Go strings are Lean strings, that is, sequences of Unicode characters.
* The routines of the Go standard library that the handler calls are modelled
  next to the handler, under the library's own names (`math.Abs`,
  `strconv.ParseFloat`, `strings.ToLower`, `fmt.Sprintf`, `sort.Slice`,
  `json.Marshal`).  Two pieces of the library are kept as parameters
  (`Library`): the Unicode lower-case table, and what `sort.Slice` does to a
  slice of more than twelve elements.  What is assumed of the latter is stated
  as `sort.SliceContract` and appears as a hypothesis wherever it is used.
* Everything outside the process (the `.env` file, the database) is the
  parameter `World`.
* A call of `log.Fatal` ends the process; the handler's outcome is then
  `Outcome.fatal`.
-/

deriving instance DecidableEq for Except

/-! ## `float64` -/

/-- A `float64` value: a finite number (`fin 0` is `+0`), `-0`, `+Inf`, `-Inf`
or `NaN`. -/
inductive Float64 where
  | fin (q : ℚ)
  | negZero
  | posInf
  | negInf
  | nan
  deriving DecidableEq

/-- The non-negative rational `x` rounded to the nearest integer, halves to the
even neighbour. -/
def roundHalfEven (x : ℚ) : Nat :=
  let whole := x.num.toNat / x.den
  let rest := x.num.toNat % x.den
  if 2 * rest < x.den then whole
  else if x.den < 2 * rest then whole + 1
  else if whole % 2 = 0 then whole else whole + 1

namespace Float64

instance : Inhabited Float64 := ⟨fin 0⟩

instance (n : Nat) : OfNat Float64 n := ⟨fin n⟩

/-- Number of binary digits of `n` (`fuel` at least `n`). -/
def bitLen : Nat → Nat → Nat
  | 0, _ => 0
  | fuel + 1, n => if n = 0 then 0 else bitLen fuel (n / 2) + 1

/-- The exponent of a positive rational: the `e` with `2^e ≤ q < 2^(e+1)`. -/
def ilog2 (q : ℚ) : ℤ :=
  let e : ℤ := (bitLen q.num.natAbs q.num.natAbs : ℤ) - (bitLen q.den q.den : ℤ)
  if (2 : ℚ) ^ e ≤ q then e else e - 1

/-- The magnitude `q ≥ 0` rounded to 53 significant binary digits, to the
nearest, halves to even; below `2^-1022` the spacing stays `2^-1074`. -/
def roundMag (q : ℚ) : ℚ :=
  let e := max (ilog2 q) (-1022)
  (roundHalfEven (q / 2 ^ (e - 52)) : ℚ) * 2 ^ (e - 52)

/-- The zero with the given sign. -/
def zero (negative : Bool) : Float64 := if negative then negZero else fin 0

/-- The infinity with the given sign. -/
def inf (negative : Bool) : Float64 := if negative then negInf else posInf

/-- The `float64` nearest to the rational `q`: a magnitude that rounds to
`2^1024` is an infinity, one that rounds to zero keeps the sign. -/
def ofRat (q : ℚ) : Float64 :=
  let r := roundMag |q|
  if (2 : ℚ) ^ 1024 ≤ r then inf (decide (q < 0))
  else if r = 0 then zero (decide (q < 0))
  else fin (if q < 0 then -r else r)

/-- Finite values: everything but `±Inf` and `NaN`. -/
def isFinite : Float64 → Bool
  | fin _ => true
  | negZero => true
  | _ => false

/-- The number a finite value stands for. -/
def toRat? : Float64 → Option ℚ
  | fin q => some q
  | negZero => some 0
  | _ => none

/-- The sign bit. -/
def signbit : Float64 → Bool
  | fin q => decide (q < 0)
  | negZero => true
  | negInf => true
  | _ => false

/-- Unary minus. -/
def neg : Float64 → Float64
  | fin q => if q = 0 then negZero else fin (-q)
  | negZero => fin 0
  | posInf => negInf
  | negInf => posInf
  | nan => nan

/-- Addition, rounded to nearest.  An exact sum of zero is `+0`, except that
`-0 + -0` is `-0`; `+Inf + -Inf` is `NaN`. -/
def add (a b : Float64) : Float64 :=
  match a.toRat?, b.toRat? with
  | some x, some y =>
    if x + y = 0 then zero (a.signbit && b.signbit) else ofRat (x + y)
  | _, _ =>
    match a, b with
    | nan, _ => nan
    | _, nan => nan
    | posInf, negInf => nan
    | negInf, posInf => nan
    | posInf, _ => posInf
    | _, posInf => posInf
    | negInf, _ => negInf
    | _, _ => negInf

/-- Subtraction, `x - y = x + (-y)`. -/
def sub (a b : Float64) : Float64 := add a (neg b)

/-- Multiplication, rounded to nearest.  The sign of a zero or infinite product
is the product of the signs; zero times infinity is `NaN`. -/
def mul (a b : Float64) : Float64 :=
  match a.toRat?, b.toRat? with
  | some x, some y =>
    if x * y = 0 then zero (a.signbit != b.signbit) else ofRat (x * y)
  | _, _ =>
    if a = nan ∨ b = nan then nan
    else if a.toRat? = some 0 ∨ b.toRat? = some 0 then nan
    else inf (a.signbit != b.signbit)

/-- Division, rounded to nearest. -/
def div (a b : Float64) : Float64 :=
  match a.toRat?, b.toRat? with
  | some x, some y =>
    if y = 0 then (if x = 0 then nan else inf (a.signbit != b.signbit))
    else if x = 0 then zero (a.signbit != b.signbit)
    else ofRat (x / y)
  | some _, none => if b = nan then nan else zero (a.signbit != b.signbit)
  | none, some _ => if a = nan then nan else inf (a.signbit != b.signbit)
  | none, none => nan

/-- The comparison `x < y`; every comparison with `NaN` is false, and the two
zeros are equal. -/
def lt (a b : Float64) : Bool :=
  match a.toRat?, b.toRat? with
  | some x, some y => decide (x < y)
  | some _, none => b == posInf
  | none, some _ => a == negInf
  | none, none => a == negInf && b == posInf

/-- The place of a value on the number line, with the infinities put at
`±2^1024`, just outside the finite values (`NaN`, which is unordered, at 0). -/
def key : Float64 → ℚ
  | fin q => q
  | negZero => 0
  | posInf => 2 ^ 1024
  | negInf => -2 ^ 1024
  | nan => 0

instance : Neg Float64 := ⟨neg⟩
instance : Add Float64 := ⟨add⟩
instance : Sub Float64 := ⟨sub⟩
instance : Mul Float64 := ⟨mul⟩
instance : Div Float64 := ⟨div⟩
instance : LT Float64 := ⟨fun a b => lt a b = true⟩

instance (a b : Float64) : Decidable (a < b) := inferInstanceAs (Decidable (lt a b = true))

end Float64

/-- Go's `math.Abs`: `Abs(±Inf) = +Inf`, `Abs(NaN) = NaN`, `Abs(-0) = +0`. -/
def math.Abs : Float64 → Float64
  | .fin q => .fin |q|
  | .negZero => .fin 0
  | .posInf => .posInf
  | .negInf => .posInf
  | .nan => .nan

/-! ## Data model -/

/-- The `Spot` struct (lines 20-28). -/
structure Spot where
  ID : String
  Name : String
  Location : String
  Website : String
  Description : String
  Rating : Float64
  Distance : Float64
  deriving DecidableEq, Inhabited

/-- The `Spots` type, `[]Spot`. -/
abbrev Spots := List Spot

/-! ## The ranking comparator and `sort.Slice` -/

/-- The `less` closure handed to `sort.Slice` (lines 108-114), as a function of
the two slice elements `spotList[i]` and `spotList[j]` it reads. -/
def less (a b : Spot) : Bool :=
  if math.Abs (a.Distance - b.Distance) < 50 then
    decide (a.Rating > b.Rating)
  else
    decide (a.Distance < b.Distance)

/-- The inner loop of the library's insertion sort,
`for j := i; j > a && less(j, j-1); j-- { swap(j, j-1) }`:
the element `x` sits just right of the already processed elements, which are
listed nearest first; it is swapped leftwards as long as it is `less` than its
left neighbour.  The result is again listed right to left. -/
def sort.sinkLeft {α : Type} (less : α → α → Bool) (x : α) : List α → List α
  | [] => [x]
  | p :: rest => if less x p then p :: sort.sinkLeft less x rest else x :: p :: rest

/-- The outer loop of the library's insertion sort, `for i := a + 1; i < b; i++`:
`done` is the processed part of the slice, right to left, `todo` the rest. -/
def sort.insertionLoop {α : Type} (less : α → α → Bool) : List α → List α → List α
  | done, [] => done.reverse
  | done, x :: todo => sort.insertionLoop less (sort.sinkLeft less x done) todo

/-- Go's `insertionSortLessFunc` on a whole slice. -/
def sort.insertionSortLessFunc {α : Type} (less : α → α → Bool) (data : List α) : List α :=
  sort.insertionLoop less [] data

/-- The library pieces kept as parameters. -/
structure Library where
  /-- The table `unicode.ToLower`. -/
  unicodeToLower : Char → Char
  /-- What `sort.Slice` does to a slice of more than twelve elements (pattern
  defeating quicksort). -/
  pdqsortLong : (Spot → Spot → Bool) → List Spot → List Spot

/-- What is assumed of the library's quicksort: it only swaps elements of the
slice, and when `less` is a strict weak ordering of the elements of the slice
(asymmetric, and such that `a` not before `b` and `b` not before `c` give `a`
not before `c`), no element of the result is `less` than an earlier one. -/
def sort.SliceContract (lib : Library) : Prop :=
  ∀ (less : Spot → Spot → Bool) (x : List Spot),
    (lib.pdqsortLong less x).Perm x ∧
    ((∀ a ∈ x, ∀ b ∈ x, less a b = true → less b a = false) →
     (∀ a ∈ x, ∀ b ∈ x, ∀ c ∈ x, less a b = false → less b c = false → less a c = false) →
      List.Pairwise (fun a b => less b a = false) (lib.pdqsortLong less x))

/-- Go's `sort.Slice` (Go 1.19 and later): slices of at most twelve elements
(`maxInsertion`) are sorted by insertion sort, longer ones by the library's
quicksort. -/
def sort.Slice (lib : Library) (x : List Spot) (less : Spot → Spot → Bool) : List Spot :=
  if x.length ≤ 12 then sort.insertionSortLessFunc less x else lib.pdqsortLong less x

/-- The ranking step of the handler (lines 107-114). -/
def rankSpots (lib : Library) (spotList : List Spot) : List Spot :=
  sort.Slice lib spotList less

/-- The comparator as the specification words it, on two spots whose distances
are the numbers `x` and `y`: the band is `|x - y| < 50`, the difference taken
exactly. -/
def BandingRuleExact (a b : Spot) : Prop :=
  ∀ x y : ℚ, a.Distance.toRat? = some x → b.Distance.toRat? = some y →
    (|x - y| < 50 → (less a b = true ↔ a.Rating > b.Rating)) ∧
    (¬ |x - y| < 50 → (less a b = true ↔ a.Distance < b.Distance))

/-- The ranking the specification asks of a result list `l`: whenever two
entries are within 50 of each other in distance, the earlier one is the one with
the greater rating, and otherwise the earlier one is the closer one. -/
def RankedByBanding (l : List Spot) : Prop :=
  ∀ i j : Fin l.length,
    (math.Abs ((l.get i).Distance - (l.get j).Distance) < 50 →
      (i < j ↔ (l.get i).Rating > (l.get j).Rating)) ∧
    (¬ math.Abs ((l.get i).Distance - (l.get j).Distance) < 50 →
      (i < j ↔ (l.get i).Distance < (l.get j).Distance))

/-- What the ranking step does guarantee for two neighbours `a`, `b` of the
result (`a` immediately before `b`): `b` does not beat `a` under the banding
rule. -/
def NotInverted (a b : Spot) : Prop :=
  (math.Abs (a.Distance - b.Distance) < 50 → ¬ b.Rating > a.Rating) ∧
  (¬ math.Abs (a.Distance - b.Distance) < 50 → ¬ b.Distance < a.Distance)

/-- A spot with the given distance and rating. -/
def spotAt (name : String) (distance rating : ℚ) : Spot :=
  { ID := name, Name := name, Location := "", Website := "", Description := "",
    Rating := .fin rating, Distance := .fin distance }

/-- A library instance for evaluating the model: the identity as lower-case
table (ASCII strings do not consult it) and the insertion sort for long slices
as well. -/
def sampleLibrary : Library :=
  { unicodeToLower := fun c => c,
    pdqsortLong := fun less x => sort.insertionSortLessFunc less x }


/-! ## `strconv.ParseFloat` -/

/-- The two error kinds of `strconv`. -/
inductive strconv.NumError where
  | ErrSyntax
  | ErrRange
  deriving DecidableEq

/-- The helper `lower(c)` of `strconv`, `c | ('x' - 'X')`. -/
def strconv.lower (c : Char) : Char := Char.ofNat (c.toNat ||| 32)

/-- The value of a decimal digit character. -/
def strconv.digitVal (c : Char) : Nat := c.toNat - 48

/-- The library's ASCII lower-casing of one character,
`if 'A' <= c && c <= 'Z' { c += 'a' - 'A' }`. -/
def toLowerASCII (c : Char) : Char :=
  if 'A' ≤ c ∧ c ≤ 'Z' then Char.ofNat (c.toNat + 32) else c

/-- Length of the longest common beginning of `s` and the lower-case word `word`,
ignoring the case of `s`. -/
def strconv.commonPrefixLenIgnoreCase : List Char → List Char → Nat
  | c :: s, p :: word =>
    if toLowerASCII c ≠ p then 0 else strconv.commonPrefixLenIgnoreCase s word + 1
  | _, _ => 0

/-- The match of `s` against `infinity` in `special`: three characters for
`inf`, eight for `infinity`, nothing else. -/
def strconv.infinityLen (s : List Char) : Option Nat :=
  let n := strconv.commonPrefixLenIgnoreCase s "infinity".data
  let n := if 3 < n ∧ n < 8 then 3 else n
  if n = 3 ∨ n = 8 then some n else none

/-- The function `special` of `strconv`: recognises `NaN` and the optionally
signed `Inf` and `Infinity` at the start of `s`, whatever the case; returns the
value and the number of characters read. -/
def strconv.special (s : List Char) : Option (Float64 × Nat) :=
  match s with
  | [] => none
  | c :: rest =>
    if c = '+' ∨ c = '-' then
      (strconv.infinityLen rest).map
        fun n => (if c = '-' then Float64.negInf else Float64.posInf, n + 1)
    else if c = 'i' ∨ c = 'I' then
      (strconv.infinityLen s).map fun n => (Float64.posInf, n)
    else if c = 'n' ∨ c = 'N' then
      if strconv.commonPrefixLenIgnoreCase s "nan".data = 3 then some (Float64.nan, 3) else none
    else none

/-- The locals of the digit loop of `readFloat`.  The mantissa keeps every
digit. -/
structure strconv.Digits where
  mantissa : Nat := 0
  nd : Nat := 0
  dp : Int := 0
  sawdot : Bool := false
  sawdigits : Bool := false
  underscores : Bool := false

/-- The digit loop of `readFloat` in the given base (10 or 16); returns the
locals and the unread rest. -/
def strconv.readDigits (base : Nat) : strconv.Digits → List Char → strconv.Digits × List Char
  | st, [] => (st, [])
  | st, c :: cs =>
    if c = '_' then
      strconv.readDigits base { st with underscores := true } cs
    else if c = '.' then
      if st.sawdot then (st, c :: cs)
      else strconv.readDigits base { st with sawdot := true, dp := st.nd } cs
    else if '0' ≤ c ∧ c ≤ '9' then
      if c = '0' ∧ st.nd = 0 then
        strconv.readDigits base { st with sawdigits := true, dp := st.dp - 1 } cs
      else
        strconv.readDigits base
          { st with sawdigits := true, nd := st.nd + 1,
                    mantissa := st.mantissa * base + strconv.digitVal c } cs
    else if base = 16 ∧ 'a' ≤ strconv.lower c ∧ strconv.lower c ≤ 'f' then
      strconv.readDigits base
        { st with sawdigits := true, nd := st.nd + 1,
                  mantissa := st.mantissa * 16 + ((strconv.lower c).toNat - 97 + 10) } cs
    else (st, c :: cs)

/-- The exponent digit loop of `readFloat`: the exponent read so far (no longer
updated once it reaches 10000), whether an underscore was seen, the rest. -/
def strconv.readExpDigits : Nat → Bool → List Char → Nat × Bool × List Char
  | e, u, [] => (e, u, [])
  | e, u, c :: cs =>
    if c = '_' then strconv.readExpDigits e true cs
    else if '0' ≤ c ∧ c ≤ '9' then
      strconv.readExpDigits (if e < 10000 then e * 10 + strconv.digitVal c else e) u cs
    else (e, u, c :: cs)

/-- The function `underscoreOK` after the optional sign and base marker:
`saw` is the class of the last character (`'0'` digit, `'_'` underscore,
`'!'` other; `'^'` at the start). -/
def strconv.underscoreLoop (hex : Bool) : Char → List Char → Bool
  | saw, [] => saw != '_'
  | saw, c :: cs =>
    if ('0' ≤ c ∧ c ≤ '9') ∨ (hex = true ∧ 'a' ≤ strconv.lower c ∧ strconv.lower c ≤ 'f') then
      strconv.underscoreLoop hex '0' cs
    else if c = '_' then
      if saw != '0' then false else strconv.underscoreLoop hex '_' cs
    else if saw = '_' then false
    else strconv.underscoreLoop hex '!' cs

/-- The function `underscoreOK`: underscores only between digits, or between a
base marker and a digit. -/
def strconv.underscoreOK (s : List Char) : Bool :=
  let s := match s with
    | c :: cs => if c = '-' ∨ c = '+' then cs else s
    | [] => s
  match s with
  | c0 :: c1 :: cs =>
    if c0 = '0' ∧ (strconv.lower c1 = 'b' ∨ strconv.lower c1 = 'o' ∨ strconv.lower c1 = 'x') then
      strconv.underscoreLoop (strconv.lower c1 == 'x') '0' cs
    else strconv.underscoreLoop false '^' s
  | _ => strconv.underscoreLoop false '^' s

/-- What `readFloat` returns when it succeeds: the number is
`± mantissa * base ^ exp` with base 2 for a hexadecimal literal and 10
otherwise; `rest` is the unread input. -/
structure strconv.Read where
  mantissa : Nat
  exp : Int
  neg : Bool
  hex : Bool
  rest : List Char

/-- The function `readFloat`: optional sign, optional `0x`, digits with at most
one point, optional exponent (mandatory for a hexadecimal literal). -/
def strconv.readFloat (s : List Char) : Option strconv.Read :=
  match s with
  | [] => none
  | c :: cs =>
    let neg := c == '-'
    let t := if c = '+' ∨ c = '-' then cs else s
    let hex := match t with
      | c0 :: c1 :: _ :: _ => c0 == '0' && strconv.lower c1 == 'x'
      | _ => false
    let t := if hex then t.drop 2 else t
    let base := if hex then 16 else 10
    let (st, t) := strconv.readDigits base {} t
    if !st.sawdigits then none
    else
      let dp : Int := if st.sawdot then st.dp else st.nd
      let dp := if hex then dp * 4 else dp
      let nd : Int := if hex then st.nd * 4 else st.nd
      let finish (dp : Int) (underscores : Bool) (t : List Char) : Option strconv.Read :=
        if underscores && !strconv.underscoreOK (s.take (s.length - t.length)) then none
        else some { mantissa := st.mantissa, exp := if st.mantissa ≠ 0 then dp - nd else 0,
                    neg := neg, hex := hex, rest := t }
      match t with
      | e :: t1 =>
        if strconv.lower e = (if hex then 'p' else 'e') then
          match t1 with
          | [] => none
          | sg :: t2 =>
            let esign : Int := if sg = '-' then -1 else 1
            let t3 := if sg = '+' ∨ sg = '-' then t2 else t1
            match t3 with
            | [] => none
            | d :: _ =>
              if '0' ≤ d ∧ d ≤ '9' then
                let (e, u, t4) := strconv.readExpDigits 0 st.underscores t3
                finish (dp + e * esign) u t4
              else none
        else if hex then none
        else finish dp st.underscores t
      | [] => if hex then none else finish dp st.underscores t

/-- The magnitude of the number a successful `readFloat` denotes. -/
def strconv.Read.magnitude (r : strconv.Read) : ℚ :=
  r.mantissa * (if r.hex then 2 else 10 : ℚ) ^ r.exp

/-- The `float64` a successful `readFloat` is converted to: the nearest one to
the number read, with the sign read (so `-0` is the negative zero). -/
def strconv.Read.float (r : strconv.Read) : Float64 :=
  let f := Float64.ofRat r.magnitude
  if r.neg then -f else f

/-- Go's `strconv.ParseFloat(s, 64)`.  The whole of `s` has to be read; the
number is rounded to the nearest `float64`, and one that rounds to an infinity
is a range error. -/
def strconv.ParseFloat (s : String) : Except strconv.NumError Float64 :=
  match strconv.special s.data with
  | some (f, n) => if n ≠ s.data.length then .error .ErrSyntax else .ok f
  | none =>
    match strconv.readFloat s.data with
    | none => .error .ErrSyntax
    | some r =>
      if r.rest ≠ [] then .error .ErrSyntax
      else if r.float.isFinite = false then .error .ErrRange
      else .ok r.float

/-- The spellings `special` accepts as a whole string, up to case: `NaN` and
the optionally signed `Inf` and `Infinity`. -/
def strconv.isSpecialSpelling (s : String) : Bool :=
  s.data.map toLowerASCII ∈
    ["nan", "inf", "+inf", "-inf", "infinity", "+infinity", "-infinity"].map String.data

/-! ## `strings.ToLower` -/

/-- Go's `strings.ToLower`: a string of ASCII characters has its letters `A`-`Z`
replaced; any other string is mapped through `unicode.ToLower`. -/
def strings.ToLower (lib : Library) (s : String) : String :=
  if s.data.all (fun c => c.toNat < 128) then
    ⟨s.data.map toLowerASCII⟩
  else
    ⟨s.data.map lib.unicodeToLower⟩

/-! ## `fmt.Sprintf` with the verb `%f` -/

/-- The digits of `n`, at least `width` of them. -/
def fmt.zeroPadded (width n : Nat) : List Char :=
  let ds := Nat.toDigits 10 n
  List.replicate (width - ds.length) '0' ++ ds

/-- The verb `%.<prec>f` applied to a `float64`: the exact value of the operand,
rounded to `prec` decimals, halves to even; the negative zero keeps its sign. -/
def fmt.formatF (prec : Nat) : Float64 → List Char
  | .nan => "NaN".data
  | .posInf => "+Inf".data
  | .negInf => "-Inf".data
  | .negZero =>
    '-' :: '0' :: (if prec = 0 then [] else '.' :: fmt.zeroPadded prec 0)
  | .fin q =>
    let n := roundHalfEven (|q| * 10 ^ prec)
    (if q < 0 then ['-'] else []) ++ Nat.toDigits 10 (n / 10 ^ prec) ++
      (if prec = 0 then [] else '.' :: fmt.zeroPadded prec (n % 10 ^ prec))

/-- The loop of `fmt.Sprintf` over a format in which `%f` is the only verb, with
`float64` operands: a `%f` prints the next operand with six decimals, or
`%!f(MISSING)` when the operands are used up; other characters are copied. -/
def fmt.doPrintf : List Char → List Float64 → List Char
  | [], _ => []
  | [c], _ => [c]
  | c :: d :: format, args =>
    if c = '%' ∧ d = 'f' then
      match args with
      | a :: args => fmt.formatF 6 a ++ fmt.doPrintf format args
      | [] => "%!f(MISSING)".data ++ fmt.doPrintf format []
    else c :: fmt.doPrintf (d :: format) args

/-- Go's `fmt.Sprintf` for such a format and exactly as many operands as
verbs. -/
def fmt.Sprintf (format : String) (args : List Float64) : String :=
  ⟨fmt.doPrintf format.data args⟩

/-- Number of `%f` verbs `fmt.doPrintf` meets in a format. -/
def fmt.verbs : List Char → Nat
  | [] => 0
  | [_] => 0
  | c :: d :: format =>
    if c = '%' ∧ d = 'f' then fmt.verbs format + 1 else fmt.verbs (d :: format)

/-- The characters that follow a `%f` in the formats of the handler: blank,
closing bracket, comma. -/
def fmt.isDelimiter (c : Char) : Bool := c == ' ' || c == ')' || c == ','

/-- Every `%f` of the format is followed by a delimiter. -/
def fmt.delimited : List Char → Bool
  | [] => true
  | [_] => true
  | c :: d :: format =>
    if c = '%' ∧ d = 'f' then
      (match format with
        | e :: _ => fmt.isDelimiter e
        | [] => false) && fmt.delimited format
    else fmt.delimited (d :: format)

/-! ## Geometry helper -/

/-- The function `calculateSquareCoordinates` (lines 137-148).  The constant
expression `1 / 111319.9` is evaluated exactly by the compiler and rounded once
when it becomes the `float64` variable `degreesPerMeter`. -/
def calculateSquareCoordinates (centerLongitude centerLatitude meters : Float64) :
    Float64 × Float64 × Float64 × Float64 :=
  let degreesPerMeter : Float64 := Float64.ofRat (1 / 111319.9)
  let degrees := meters * degreesPerMeter
  let bottomLeftLongitude := centerLongitude - degrees
  let bottomLeftLatitude := centerLatitude - degrees
  let topRightLongitude := centerLongitude + degrees
  let topRightLatitude := centerLatitude + degrees
  (bottomLeftLongitude, bottomLeftLatitude, topRightLongitude, topRightLatitude)

/-! ## `encoding/json` -/

/-- A JSON string or number; a number is the finite `float64` it is printed
from. -/
inductive json.Scalar where
  | string (s : String)
  | number (f : Float64)
  deriving DecidableEq

/-- A JSON object with scalar members, in the order they are written. -/
abbrev json.Object := List (String × json.Scalar)

/-- The JSON values a `Spots` value encodes to. -/
inductive json.Value where
  | null
  | array (items : List json.Object)
  deriving DecidableEq

/-- The error of `encoding/json` for a `float64` that is `NaN` or infinite. -/
inductive json.UnsupportedValueError where
  | mk
  deriving DecidableEq

/-- Encoding of a `float64` member. -/
def json.marshalFloat (f : Float64) : Except json.UnsupportedValueError json.Scalar :=
  if f.isFinite then .ok (.number f) else .error .mk

/-- Encoding of one `Spot`: the exported fields in declaration order, each under
the name of its `json` tag, and under the field name when it has no tag. -/
def json.marshalSpot (s : Spot) : Except json.UnsupportedValueError json.Object := do
  let rating ← json.marshalFloat s.Rating
  let distance ← json.marshalFloat s.Distance
  pure [("id", .string s.ID), ("name", .string s.Name), ("location", .string s.Location),
        ("website", .string s.Website), ("description", .string s.Description),
        ("rating", rating), ("Distance", distance)]

/-- Encoding of the elements of a slice, in order; the first element that
cannot be encoded is the error. -/
def json.marshalSpots : List Spot → Except json.UnsupportedValueError (List json.Object)
  | [] => .ok []
  | s :: rest =>
    match json.marshalSpot s with
    | .error e => .error e
    | .ok obj =>
      match json.marshalSpots rest with
      | .error e => .error e
      | .ok objs => .ok (obj :: objs)

/-- Go's `json.Marshal` on a `Spots` value.  A slice declared with `var` and
grown only by `append` is nil as long as nothing was appended, and a nil slice
encodes as `null`. -/
def json.Marshal (v : Spots) : Except json.UnsupportedValueError json.Value :=
  match v with
  | [] => .ok .null
  | _ => (json.marshalSpots v).map .array

/-- The member names of the object the specification describes. -/
def specifiedKeys : List String :=
  ["id", "name", "location", "website", "description", "rating"]

/-- The member names of the object the encoder writes. -/
def encodedKeys : List String :=
  ["id", "name", "location", "website", "description", "rating", "Distance"]

/-! ## The handler -/

/-- The four query parameters as `r.URL.Query().Get` returns them (the empty
string for an absent one). -/
structure Request where
  latitude : String
  longitude : String
  radius : String
  isCircle : String
  deriving DecidableEq

/-- The `log.Fatal` calls of the handler, by the step that fails. -/
inductive FatalSite where
  | latitude
  | longitude
  | radius
  | isCircle
  | dotenv
  | sqlOpen
  | dbQuery
  | rowScan
  deriving DecidableEq

/-- What a call of the handler ends in.  `fatal`: a `log.Fatal` was reached, so
the process has exited with status 1 and nothing was written to the response.
`response`: the handler returned; `body` is the JSON value written, or `none`
when nothing was written. -/
inductive Outcome where
  | fatal (site : FatalSite)
  | response (status : Nat) (body : Option json.Value)
  deriving DecidableEq

/-- Everything outside the process.  `dbQuery` answers a query text with
`none` when `db.Query` fails and with the rows otherwise; a row is `none` when
`Scan` fails on it. -/
structure World where
  dotenvLoads : Bool
  sqlOpens : Bool
  dbQuery : String → Option (List (Option Spot))

/-- The locals `latitude`, `longitude`, `radius`, `isCircle` after line 60. -/
structure Params where
  latitude : Float64
  longitude : Float64
  radius : Float64
  isCircle : Bool
  deriving DecidableEq

/-- Lines 55-60: the shape is the lower-cased `isCircle` parameter, which has
to be `circle` or `square`. -/
def parseShape (lib : Library) (isCircleStr : String) : Except FatalSite Bool :=
  let isCircleStr := strings.ToLower lib isCircleStr
  if isCircleStr ≠ "circle" ∧ isCircleStr ≠ "square" then .error .isCircle
  else .ok (isCircleStr == "circle")

/-- Lines 41-60: parsing and validation of the request parameters. -/
def parseParams (lib : Library) (r : Request) : Except FatalSite Params :=
  match strconv.ParseFloat r.latitude with
  | .error _ => .error .latitude
  | .ok latitude =>
    match strconv.ParseFloat r.longitude with
    | .error _ => .error .longitude
    | .ok longitude =>
      match strconv.ParseFloat r.radius with
      | .error _ => .error .radius
      | .ok radius =>
        match parseShape lib r.isCircle with
        | .error site => .error site
        | .ok isCircle => .ok ⟨latitude, longitude, radius, isCircle⟩

/-- The format of the circle query (line 84). -/
def circleFormat : String :=
  "SELECT * FROM (SELECT id, name, COALESCE(website, ''), coordinates, COALESCE(description, ''), rating, ST_Distance(coordinates::geography, 'SRID=4326;POINT(%f %f)'::geography) AS distance FROM public.\"MY_TABLE\" WHERE ST_DWithin(coordinates, 'SRID=4326;POINT(%f %f)'::geography, %f)) AS subquery;"

/-- The format of the square query (line 88). -/
def squareFormat : String :=
  "SELECT id, name, COALESCE(website, ''), coordinates, COALESCE(description, ''), rating, ST_Distance(coordinates, 'SRID=4326;POINT(%f %f)'::geography) AS distance FROM public.\"MY_TABLE\" WHERE ST_DWithin(coordinates, ST_MakeEnvelope(%f, %f, %f, %f, 4326), 0);"

/-- Lines 81-89: the SQL text. -/
def buildQuery (p : Params) : String :=
  if p.isCircle then
    fmt.Sprintf circleFormat [p.longitude, p.latitude, p.longitude, p.latitude, p.radius]
  else
    let (bottomLeftLongitude, bottomLeftLatitude, topRightLongitude, topRightLatitude) :=
      calculateSquareCoordinates p.longitude p.latitude p.radius
    fmt.Sprintf squareFormat [p.longitude, p.latitude, bottomLeftLongitude, bottomLeftLatitude,
      topRightLongitude, topRightLatitude]

/-- The operands of the `Sprintf` call that builds the query, in order. -/
def queryOperands (p : Params) : List Float64 :=
  if p.isCircle then
    [p.longitude, p.latitude, p.longitude, p.latitude, p.radius]
  else
    let (bottomLeftLongitude, bottomLeftLatitude, topRightLongitude, topRightLatitude) :=
      calculateSquareCoordinates p.longitude p.latitude p.radius
    [p.longitude, p.latitude, bottomLeftLongitude, bottomLeftLatitude,
      topRightLongitude, topRightLatitude]

/-- A request has an invalid parameter: a latitude, longitude or radius that
`strconv.ParseFloat` rejects, or a shape that is neither `circle` nor
`square`. -/
def InvalidParameter (lib : Library) (r : Request) : Prop :=
  (∃ e, strconv.ParseFloat r.latitude = .error e) ∨
  (∃ e, strconv.ParseFloat r.longitude = .error e) ∨
  (∃ e, strconv.ParseFloat r.radius = .error e) ∨
  (strings.ToLower lib r.isCircle ≠ "circle" ∧ strings.ToLower lib r.isCircle ≠ "square")

/-- Lines 97-105: the rows are scanned in order; the first failing `Scan` is
fatal. -/
def scanRows : List (Option Spot) → Option (List Spot)
  | [] => some []
  | none :: _ => none
  | some row :: rows => (scanRows rows).map (row :: ·)

/-- The handler `spotsInAreaHandler` (lines 32-123).  The lines it prints on
the standard output (lines 116-119) are not part of the outcome. -/
def spotsInAreaHandler (lib : Library) (world : World) (r : Request) : Outcome :=
  match parseParams lib r with
  | .error site => .fatal site
  | .ok p =>
    if !world.dotenvLoads then .fatal .dotenv
    else if !world.sqlOpens then .fatal .sqlOpen
    else
      match world.dbQuery (buildQuery p) with
      | none => .fatal .dbQuery
      | some rows =>
        match scanRows rows with
        | none => .fatal .rowScan
        | some spotList =>
          match json.Marshal (rankSpots lib spotList) with
          | .ok body => .response 200 (some body)
          | .error _ => .response 200 none

/-- A world in which the configuration loads, the connection opens and every
query is answered with the given rows. -/
def worldWith (rows : List Spot) : World :=
  { dotenvLoads := true, sqlOpens := true, dbQuery := fun _ => some (rows.map some) }

/-! ## Rounding to the nearest `float64` -/

theorem roundHalfEven_decomp (x : ℚ) (hx : 0 ≤ x) :
    x = (x.num.toNat / x.den : ℕ) + ((x.num.toNat % x.den : ℕ) : ℚ) / x.den := by
  have hden : (0 : ℚ) < x.den := by exact_mod_cast x.den_pos
  have hnum : ((x.num.toNat : ℕ) : ℚ) = x.num := by
    have : (x.num.toNat : ℤ) = x.num := Int.toNat_of_nonneg (Rat.num_nonneg.mpr hx)
    exact_mod_cast congrArg (fun z : ℤ => (z : ℚ)) this
  have hx' : x = (x.num.toNat : ℚ) / x.den := by
    rw [hnum]; exact (Rat.num_div_den x).symm
  have hdm : ((x.num.toNat : ℕ) : ℚ) =
      (x.den : ℚ) * ((x.num.toNat / x.den : ℕ) : ℚ) + ((x.num.toNat % x.den : ℕ) : ℚ) := by
    exact_mod_cast (Nat.div_add_mod x.num.toNat x.den).symm
  conv_lhs => rw [hx', hdm]
  field_simp
  ring

/-- The rounded value is within one half of the argument, and an argument half
way between two integers goes to the even one. -/
theorem roundHalfEven_spec (x : ℚ) (hx : 0 ≤ x) :
    (roundHalfEven x : ℚ) - 1 / 2 ≤ x ∧ x ≤ (roundHalfEven x : ℚ) + 1 / 2 ∧
    ((x = (roundHalfEven x : ℚ) - 1 / 2 ∨ x = (roundHalfEven x : ℚ) + 1 / 2) →
      roundHalfEven x % 2 = 0) := by
  have hden : (0 : ℚ) < x.den := by exact_mod_cast x.den_pos
  have hdec := roundHalfEven_decomp x hx
  have hrlt : ((x.num.toNat % x.den : ℕ) : ℚ) < x.den := by
    exact_mod_cast Nat.mod_lt _ x.den_pos
  have hr0 : (0 : ℚ) ≤ ((x.num.toNat % x.den : ℕ) : ℚ) := by positivity
  unfold roundHalfEven
  simp only []
  generalize hw : x.num.toNat / x.den = w at hdec ⊢
  generalize hr : x.num.toNat % x.den = r at hdec hrlt hr0 ⊢
  by_cases h1 : 2 * r < x.den
  · rw [if_pos h1]
    have h1' : (2 : ℚ) * r < x.den := by exact_mod_cast h1
    have hfrac : (r : ℚ) / x.den < 1 / 2 := by
      rw [div_lt_div_iff₀ hden (by norm_num)]; linarith
    have hfrac0 : (0 : ℚ) ≤ (r : ℚ) / x.den := by positivity
    refine ⟨by linarith, by linarith, ?_⟩
    rintro (h | h) <;> linarith
  · rw [if_neg h1]
    by_cases h2 : x.den < 2 * r
    · rw [if_pos h2]
      have h2' : (x.den : ℚ) < 2 * r := by exact_mod_cast h2
      have hfrac : (1 : ℚ) / 2 < (r : ℚ) / x.den := by
        rw [div_lt_div_iff₀ (by norm_num) hden]; linarith
      have hfrac1 : (r : ℚ) / x.den < 1 := by
        rw [div_lt_one hden]; exact hrlt
      push_cast
      refine ⟨by linarith, by linarith, ?_⟩
      rintro (h | h) <;> linarith
    · rw [if_neg h2]
      have heq : 2 * r = x.den := by omega
      have heq' : (2 : ℚ) * r = x.den := by exact_mod_cast heq
      have hfrac : (r : ℚ) / x.den = 1 / 2 := by
        rw [div_eq_div_iff (ne_of_gt hden) (by norm_num)]; linarith
      by_cases h3 : w % 2 = 0
      · rw [if_pos h3]
        exact ⟨by linarith, by linarith, fun _ => h3⟩
      · rw [if_neg h3]
        push_cast
        refine ⟨by linarith, by linarith, fun _ => ?_⟩
        omega

theorem roundHalfEven_mono (x y : ℚ) (hx : 0 ≤ x) (hxy : x ≤ y) :
    roundHalfEven x ≤ roundHalfEven y := by
  by_contra hlt
  push_neg at hlt
  have hy : 0 ≤ y := le_trans hx hxy
  obtain ⟨_, hx2, _⟩ := roundHalfEven_spec x hx
  obtain ⟨hy1, _, _⟩ := roundHalfEven_spec y hy
  have h1 : (roundHalfEven y : ℚ) + 1 ≤ roundHalfEven x := by exact_mod_cast hlt
  have hxy' : x = y := by linarith
  subst hxy'
  exact absurd hlt (lt_irrefl _)

theorem roundHalfEven_natCast (n : ℕ) : roundHalfEven (n : ℚ) = n := by
  obtain ⟨h1, h2, _⟩ := roundHalfEven_spec (n : ℚ) (by positivity)
  have ha : (roundHalfEven (n : ℚ) : ℚ) < n + 1 := by linarith
  have hb : (n : ℚ) < roundHalfEven (n : ℚ) + 1 := by linarith
  have ha' : roundHalfEven (n : ℚ) < n + 1 := by exact_mod_cast ha
  have hb' : n < roundHalfEven (n : ℚ) + 1 := by exact_mod_cast hb
  omega

/-- Below `n - 1/2` the rounded value is below the integer `n`. -/
theorem roundHalfEven_lt_of_lt (x : ℚ) (n : ℕ) (hx : 0 ≤ x) (h : x < (n : ℚ) - 1 / 2) :
    roundHalfEven x < n := by
  obtain ⟨h1, _, _⟩ := roundHalfEven_spec x hx
  have : (roundHalfEven x : ℚ) < n := by linarith
  exact_mod_cast this

/-- From `n - 1/2` on, `n` even, the rounded value is at least `n`. -/
theorem roundHalfEven_ge_of_ge (x : ℚ) (n : ℕ) (hn : n % 2 = 0) (hx : 0 ≤ x)
    (h : (n : ℚ) - 1 / 2 ≤ x) : n ≤ roundHalfEven x := by
  obtain ⟨_, h2, h3⟩ := roundHalfEven_spec x hx
  by_contra hlt
  push_neg at hlt
  have h4 : (roundHalfEven x : ℚ) + 1 ≤ n := by exact_mod_cast hlt
  have heq : x = (roundHalfEven x : ℚ) + 1 / 2 := by linarith
  have hev := h3 (Or.inr heq)
  have h5 : (n : ℚ) = roundHalfEven x + 1 := by linarith
  have h6 : n = roundHalfEven x + 1 := by exact_mod_cast h5
  omega

namespace Float64

theorem bitLen_zero (fuel : Nat) : bitLen fuel 0 = 0 := by
  cases fuel <;> simp [bitLen]

theorem bitLen_spec (fuel n : Nat) (h : n ≤ fuel) :
    n < 2 ^ bitLen fuel n ∧ (0 < n → 2 ^ bitLen fuel n ≤ 2 * n) := by
  induction fuel generalizing n with
  | zero =>
    have : n = 0 := by omega
    subst this
    simp [bitLen]
  | succ fuel ih =>
    by_cases hn : n = 0
    · subst hn
      simp [bitLen]
    · unfold bitLen
      rw [if_neg hn]
      obtain ⟨h1, h2⟩ := ih (n / 2) (by omega)
      rw [pow_succ]
      refine ⟨by omega, fun _ => ?_⟩
      by_cases hh : n / 2 = 0
      · rw [hh, bitLen_zero]
        omega
      · have := h2 (by omega)
        omega

theorem two_zpow_pos (e : ℤ) : (0 : ℚ) < 2 ^ e := zpow_pos (by norm_num) e

theorem two_zpow_le {a b : ℤ} (h : a ≤ b) : (2 : ℚ) ^ a ≤ 2 ^ b :=
  zpow_le_zpow_right₀ (by norm_num) h

theorem two_zpow_lt_iff {a b : ℤ} : (2 : ℚ) ^ a < 2 ^ b ↔ a < b :=
  zpow_lt_zpow_iff_right₀ (by norm_num)

/-- The exponent of a positive rational brackets it between two powers of two. -/
theorem ilog2_spec (q : ℚ) (hq : 0 < q) : (2 : ℚ) ^ ilog2 q ≤ q ∧ q < 2 ^ (ilog2 q + 1) := by
  have hnum : 0 < q.num := Rat.num_pos.mpr hq
  have hN : 0 < q.num.natAbs := Int.natAbs_pos.mpr (ne_of_gt hnum)
  have hD : 0 < q.den := q.den_pos
  obtain ⟨hN1, hN2⟩ := bitLen_spec q.num.natAbs q.num.natAbs le_rfl
  obtain ⟨hD1, hD2⟩ := bitLen_spec q.den q.den le_rfl
  have hN2 := hN2 hN
  have hD2 := hD2 hD
  have hqeq : q = (q.num.natAbs : ℚ) / (q.den : ℚ) := by
    rw [Nat.cast_natAbs, abs_of_pos hnum]
    exact (Rat.num_div_den q).symm
  unfold ilog2
  simp only []
  generalize bitLen q.num.natAbs q.num.natAbs = a at *
  generalize bitLen q.den q.den = b at *
  have hDq : (0 : ℚ) < q.den := by exact_mod_cast hD
  have hN1q : (q.num.natAbs : ℚ) < 2 ^ a := by exact_mod_cast hN1
  have hN2q : (2 : ℚ) ^ a ≤ 2 * q.num.natAbs := by exact_mod_cast hN2
  have hD1q : (q.den : ℚ) < 2 ^ b := by exact_mod_cast hD1
  have hD2q : (2 : ℚ) ^ b ≤ 2 * q.den := by exact_mod_cast hD2
  have hpa : (0 : ℚ) < 2 ^ a := by positivity
  have hpb : (0 : ℚ) < 2 ^ b := by positivity
  have hz : ∀ k : ℤ, (2 : ℚ) ^ ((a : ℤ) - (b : ℤ) + k) = 2 ^ a / 2 ^ b * 2 ^ k := by
    intro k
    rw [zpow_add₀ (by norm_num), zpow_sub₀ (by norm_num), zpow_natCast, zpow_natCast]
  have hup : q < 2 ^ ((a : ℤ) - (b : ℤ) + 1) := by
    rw [hz 1, zpow_one, div_mul_eq_mul_div]
    conv_lhs => rw [hqeq]
    rw [div_lt_div_iff₀ hDq hpb]
    nlinarith
  have hlo : (2 : ℚ) ^ ((a : ℤ) - (b : ℤ) + (-1)) ≤ q := by
    have h2 : (2 : ℚ) ^ (-1 : ℤ) = 1 / 2 := by norm_num
    rw [hz (-1), h2, div_mul_eq_mul_div]
    conv_rhs => rw [hqeq]
    rw [div_le_div_iff₀ hpb hDq]
    nlinarith
  split
  · rename_i h
    exact ⟨h, hup⟩
  · rename_i h
    push_neg at h
    refine ⟨by rw [sub_eq_add_neg]; exact hlo, ?_⟩
    rw [sub_add_cancel]
    exact h

theorem ilog2_eq (q : ℚ) (k : ℤ) (h1 : (2 : ℚ) ^ k ≤ q) (h2 : q < 2 ^ (k + 1)) : ilog2 q = k := by
  have hq : 0 < q := lt_of_lt_of_le (two_zpow_pos k) h1
  obtain ⟨h3, h4⟩ := ilog2_spec q hq
  have a1 : k < ilog2 q + 1 := two_zpow_lt_iff.mp (lt_of_le_of_lt h1 h4)
  have a2 : ilog2 q < k + 1 := two_zpow_lt_iff.mp (lt_of_le_of_lt h3 h2)
  omega

theorem ilog2_mono (p q : ℚ) (hp : 0 < p) (hpq : p ≤ q) : ilog2 p ≤ ilog2 q := by
  obtain ⟨h1, _⟩ := ilog2_spec p hp
  obtain ⟨_, h4⟩ := ilog2_spec q (lt_of_lt_of_le hp hpq)
  have : ilog2 p < ilog2 q + 1 := two_zpow_lt_iff.mp (lt_of_le_of_lt (le_trans h1 hpq) h4)
  omega

theorem roundMag_zero : roundMag 0 = 0 := by
  unfold roundMag
  simp only [zero_div]
  have := roundHalfEven_natCast 0
  simp only [Nat.cast_zero] at this
  rw [this]
  simp

theorem roundMag_nonneg (q : ℚ) : 0 ≤ roundMag q := by
  unfold roundMag
  simp only []
  exact mul_nonneg (by positivity) (le_of_lt (two_zpow_pos _))

theorem two_pow_53_split (e : ℤ) : ((2 ^ 53 : ℕ) : ℚ) * 2 ^ (e - 52) = 2 ^ (e + 1) := by
  have hcast : ((2 ^ 53 : ℕ) : ℚ) = (2 : ℚ) ^ (53 : ℤ) := by norm_num
  rw [hcast, ← zpow_add₀ (by norm_num)]
  congr 1
  omega

theorem two_pow_52_split (e : ℤ) : ((2 ^ 52 : ℕ) : ℚ) * 2 ^ (e - 52) = 2 ^ e := by
  have hcast : ((2 ^ 52 : ℕ) : ℚ) = (2 : ℚ) ^ (52 : ℤ) := by norm_num
  rw [hcast, ← zpow_add₀ (by norm_num)]
  congr 1
  omega

/-- A rounded magnitude does not leave the binade of the argument at the top. -/
theorem roundMag_le (q : ℚ) (hq : 0 < q) : roundMag q ≤ 2 ^ (max (ilog2 q) (-1022) + 1) := by
  obtain ⟨_, h2⟩ := ilog2_spec q hq
  have he : ilog2 q ≤ max (ilog2 q) (-1022) := le_max_left _ _
  unfold roundMag
  simp only []
  generalize max (ilog2 q) (-1022) = e at *
  have hu := two_zpow_pos (e - 52)
  have hlt : q / 2 ^ (e - 52) ≤ ((2 ^ 53 : ℕ) : ℚ) := by
    rw [div_le_iff₀ hu, two_pow_53_split]
    exact le_trans (le_of_lt h2) (two_zpow_le (by omega))
  have hr := roundHalfEven_mono _ _ (div_nonneg (le_of_lt hq) (le_of_lt hu)) hlt
  rw [roundHalfEven_natCast] at hr
  have hr' : ((roundHalfEven (q / 2 ^ (e - 52)) : ℕ) : ℚ) ≤ ((2 ^ 53 : ℕ) : ℚ) :=
    Nat.cast_le.mpr hr
  calc (roundHalfEven (q / 2 ^ (e - 52)) : ℚ) * 2 ^ (e - 52)
      ≤ ((2 ^ 53 : ℕ) : ℚ) * 2 ^ (e - 52) := mul_le_mul_of_nonneg_right hr' (le_of_lt hu)
    _ = 2 ^ (e + 1) := two_pow_53_split e

/-- A rounded magnitude in the normal range does not leave the binade of the
argument at the bottom. -/
theorem le_roundMag (q : ℚ) (hq : 0 < q) (he : -1022 ≤ ilog2 q) : 2 ^ ilog2 q ≤ roundMag q := by
  obtain ⟨h1, _⟩ := ilog2_spec q hq
  unfold roundMag
  simp only []
  rw [max_eq_left he]
  generalize ilog2 q = e at *
  have hu := two_zpow_pos (e - 52)
  have hge : ((2 ^ 52 : ℕ) : ℚ) ≤ q / 2 ^ (e - 52) := by
    rw [le_div_iff₀ hu, two_pow_52_split]
    exact h1
  have hr := roundHalfEven_mono _ _ (Nat.cast_nonneg _) hge
  rw [roundHalfEven_natCast] at hr
  have hr' : ((2 ^ 52 : ℕ) : ℚ) ≤ ((roundHalfEven (q / 2 ^ (e - 52)) : ℕ) : ℚ) :=
    Nat.cast_le.mpr hr
  calc (2 : ℚ) ^ e = ((2 ^ 52 : ℕ) : ℚ) * 2 ^ (e - 52) := (two_pow_52_split e).symm
    _ ≤ (roundHalfEven (q / 2 ^ (e - 52)) : ℚ) * 2 ^ (e - 52) :=
        mul_le_mul_of_nonneg_right hr' (le_of_lt hu)

/-- Rounding is monotone. -/
theorem roundMag_mono (p q : ℚ) (hp : 0 ≤ p) (hpq : p ≤ q) : roundMag p ≤ roundMag q := by
  rcases eq_or_lt_of_le hp with hp0 | hp0
  · rw [← hp0, roundMag_zero]
    exact roundMag_nonneg q
  have hq0 : 0 < q := lt_of_lt_of_le hp0 hpq
  have hmono := ilog2_mono p q hp0 hpq
  by_cases heq : max (ilog2 p) (-1022) = max (ilog2 q) (-1022)
  · unfold roundMag
    simp only []
    rw [heq]
    have hu := two_zpow_pos (max (ilog2 q) (-1022) - 52)
    refine mul_le_mul_of_nonneg_right ?_ (le_of_lt hu)
    have := roundHalfEven_mono (p / 2 ^ (max (ilog2 q) (-1022) - 52))
      (q / 2 ^ (max (ilog2 q) (-1022) - 52)) (div_nonneg hp (le_of_lt hu))
      (div_le_div_of_nonneg_right hpq (le_of_lt hu))
    exact_mod_cast this
  · have hlt : max (ilog2 p) (-1022) < max (ilog2 q) (-1022) :=
      lt_of_le_of_ne (max_le_max hmono le_rfl) heq
    have hq1 : -1022 < ilog2 q := by
      by_contra hcon
      push_neg at hcon
      rw [max_eq_right hcon] at hlt
      exact absurd hlt (not_lt.mpr (le_max_right _ _))
    have hq2 : max (ilog2 q) (-1022) = ilog2 q := max_eq_left (le_of_lt hq1)
    rw [hq2] at hlt
    calc roundMag p ≤ 2 ^ (max (ilog2 p) (-1022) + 1) := roundMag_le p hp0
      _ ≤ 2 ^ ilog2 q := two_zpow_le (by omega)
      _ ≤ roundMag q := le_roundMag q hq0 (le_of_lt hq1)

end Float64

/-! ## Facts about `Float64` -/

namespace Float64

theorem ofNat_eq_fin (n : Nat) [n.AtLeastTwo] : (OfNat.ofNat n : Float64) = fin n := rfl

theorem lt_iff (a b : Float64) : a < b ↔ lt a b = true := Iff.rfl

theorem sub_eq (a b : Float64) : a - b = add a (neg b) := rfl

theorem add_eq (a b : Float64) : a + b = add a b := rfl

theorem mul_eq (a b : Float64) : a * b = mul a b := rfl

theorem neg_fin (q : ℚ) : neg (fin q) = if q = 0 then negZero else fin (-q) := rfl

theorem toRat?_neg (b : Float64) (y : ℚ) (h : b.toRat? = some y) : (neg b).toRat? = some (-y) := by
  cases b with
  | fin q =>
    simp only [toRat?, Option.some.injEq] at h
    subst h
    rw [neg_fin]
    by_cases hq : q = 0
    · rw [if_pos hq, hq]
      simp [toRat?]
    · rw [if_neg hq]
      rfl
  | negZero =>
    simp only [toRat?, Option.some.injEq] at h
    subst h
    simp [neg, toRat?]
  | posInf => simp [toRat?] at h
  | negInf => simp [toRat?] at h
  | nan => simp [toRat?] at h

/-- The sum of two finite values. -/
theorem add_finite (a b : Float64) (x y : ℚ) (ha : a.toRat? = some x) (hb : b.toRat? = some y) :
    add a b = if x + y = 0 then zero (a.signbit && b.signbit) else ofRat (x + y) := by
  unfold add
  rw [ha, hb]

/-- The difference of two finite values. -/
theorem sub_finite (a b : Float64) (x y : ℚ) (ha : a.toRat? = some x) (hb : b.toRat? = some y) :
    a - b = if x - y = 0 then zero (a.signbit && (neg b).signbit) else ofRat (x - y) := by
  rw [sub_eq, add_finite a (neg b) x (-y) ha (toRat?_neg b y hb), ← sub_eq_add_neg]

theorem abs_signedZero (s : Bool) : math.Abs (zero s) = fin 0 := by
  cases s <;> rfl

/-- The absolute value of a rounded number. -/
theorem abs_ofRat (p : ℚ) :
    math.Abs (ofRat p) = if (2 : ℚ) ^ 1024 ≤ roundMag |p| then posInf else fin (roundMag |p|) := by
  unfold ofRat
  simp only []
  by_cases h1 : (2 : ℚ) ^ 1024 ≤ roundMag |p|
  · rw [if_pos h1, if_pos h1]
    cases decide (p < 0) <;> rfl
  · rw [if_neg h1, if_neg h1]
    by_cases h2 : roundMag |p| = 0
    · rw [if_pos h2, abs_signedZero, h2]
    · rw [if_neg h2]
      show fin _ = fin _
      congr 1
      split
      · rw [abs_neg, abs_of_nonneg (roundMag_nonneg _)]
      · exact abs_of_nonneg (roundMag_nonneg _)

theorem lt_asymm (a b : Float64) : a < b → ¬ b < a := by
  rw [lt_iff, lt_iff]
  cases a <;> cases b <;> simp [lt, toRat?] <;> exact fun h => le_of_lt h

theorem abs_sub_finite (a b : Float64) (x y : ℚ) (ha : a.toRat? = some x)
    (hb : b.toRat? = some y) :
    math.Abs (a - b) =
      if (2 : ℚ) ^ 1024 ≤ roundMag |x - y| then posInf else fin (roundMag |x - y|) := by
  rw [sub_finite a b x y ha hb]
  by_cases h : x - y = 0
  · rw [if_pos h, abs_signedZero, h, abs_zero, roundMag_zero, if_neg (by norm_num)]
  · rw [if_neg h, abs_ofRat]

/-- The absolute difference when one of the two values is not finite. -/
theorem abs_sub_nonfinite (a b : Float64) (h : a.toRat? = none ∨ b.toRat? = none) :
    math.Abs (a - b) = if a = nan ∨ b = nan ∨ a = b then nan else posInf := by
  cases a <;> cases b <;> (try simp [toRat?] at h) <;>
    first
    | (simp [sub_eq, add, neg, toRat?, math.Abs]; done)
    | (rename_i q; by_cases hq : q = 0 <;> simp [sub_eq, add, neg, toRat?, math.Abs, hq])

theorem abs_sub_swap (a b : Float64) : math.Abs (a - b) = math.Abs (b - a) := by
  cases ha : a.toRat? with
  | some x =>
    cases hb : b.toRat? with
    | some y =>
      rw [abs_sub_finite a b x y ha hb, abs_sub_finite b a y x hb ha, abs_sub_comm]
    | none =>
      rw [abs_sub_nonfinite a b (Or.inr hb), abs_sub_nonfinite b a (Or.inl hb)]
      simp only [eq_comm, or_comm, or_left_comm]
  | none =>
    rw [abs_sub_nonfinite a b (Or.inl ha), abs_sub_nonfinite b a (Or.inr ha)]
    simp only [eq_comm, or_comm, or_left_comm]

/-- Rounding keeps a magnitude below 50 exactly when the magnitude is below
`50 - 2^-48`, the midpoint between 50 and the `float64` just below it. -/
theorem roundMag_lt_fifty (q : ℚ) (hq : 0 ≤ q) : roundMag q < 50 ↔ q < 50 - 1 / 2 ^ 48 := by
  constructor
  · intro h
    by_contra hge
    push_neg at hge
    have hm := roundMag_mono _ _ (by norm_num) hge
    have h50 : roundMag (50 - 1 / 2 ^ 48) = 50 := by decide!
    rw [h50] at hm
    linarith
  · intro h
    by_cases h32 : q < 32
    · have hm := roundMag_mono q 32 hq (le_of_lt h32)
      have h32' : roundMag 32 = 32 := by decide!
      rw [h32'] at hm
      linarith
    · push_neg at h32
      have h64 : q < 50 := by
        have : (0 : ℚ) < 1 / 2 ^ 48 := by positivity
        linarith
      have he : ilog2 q = 5 := ilog2_eq q 5 (by norm_num; exact h32) (by norm_num; linarith)
      unfold roundMag
      simp only []
      rw [he]
      have hmax : max (5 : ℤ) (-1022) - 52 = -47 := by decide
      rw [hmax]
      have hpow : (2 : ℚ) ^ (-47 : ℤ) = 1 / 2 ^ 47 := by
        rw [zpow_neg, one_div]
        norm_cast
      rw [hpow]
      have hx : q / (1 / 2 ^ 47) = q * 2 ^ 47 := by field_simp
      rw [hx]
      have hlt := roundHalfEven_lt_of_lt (q * 2 ^ 47) (50 * 2 ^ 47)
        (mul_nonneg hq (by positivity)) (by
          push_cast
          have h48 : (1 : ℚ) / 2 ^ 48 * 2 ^ 47 = 1 / 2 := by norm_num
          nlinarith [h48])
      have hle : ((roundHalfEven (q * 2 ^ 47) : ℕ) : ℚ) + 1 ≤ ((50 * 2 ^ 47 : ℕ) : ℚ) := by
        exact_mod_cast hlt
      push_cast at hle
      have hpos : (0 : ℚ) < 1 / 2 ^ 47 := by positivity
      have h47 : (50 : ℚ) * 2 ^ 47 * (1 / 2 ^ 47) = 50 := by norm_num
      nlinarith [mul_le_mul_of_nonneg_right hle (le_of_lt hpos)]

/-- The band test of the comparator on two finite distances `x` and `y`: the
rounded difference is below 50 exactly when `|x - y| < 50 - 2^-48`. -/
theorem abs_sub_lt_fifty (a b : Float64) (x y : ℚ) (ha : a.toRat? = some x)
    (hb : b.toRat? = some y) :
    math.Abs (a - b) < 50 ↔ |x - y| < 50 - 1 / 2 ^ 48 := by
  rw [abs_sub_finite a b x y ha hb, ← roundMag_lt_fifty _ (abs_nonneg _), lt_iff]
  by_cases h : (2 : ℚ) ^ 1024 ≤ roundMag |x - y|
  · rw [if_pos h]
    have : ¬ roundMag |x - y| < 50 := by
      push_neg
      refine le_trans ?_ h
      norm_num
    simp [lt, toRat?, this]
  · rw [if_neg h]
    show lt (fin _) (fin ((50 : ℕ) : ℚ)) = true ↔ _
    simp [lt, toRat?]

end Float64

namespace Float64

theorem key_signedZero (s : Bool) : key (zero s) = 0 := by
  cases s <;> rfl

/-- Where a rounded number lies: at the rounded magnitude, capped at `2^1024`,
on the side of its sign. -/
theorem key_ofRat (p : ℚ) :
    key (ofRat p) =
      if p < 0 then -min (roundMag |p|) (2 ^ 1024) else min (roundMag |p|) (2 ^ 1024) := by
  unfold ofRat
  simp only []
  by_cases h1 : (2 : ℚ) ^ 1024 ≤ roundMag |p|
  · rw [if_pos h1, min_eq_right h1]
    by_cases hp : p < 0
    · simp [hp, inf, key]
    · simp [hp, inf, key]
  · rw [if_neg h1, min_eq_left (le_of_lt (not_le.mp h1))]
    by_cases h2 : roundMag |p| = 0
    · rw [if_pos h2, key_signedZero, h2]
      simp
    · rw [if_neg h2]
      by_cases hp : p < 0
      · simp [hp, key]
      · simp [hp, key]

theorem key_ofRat_zero : key (ofRat 0) = 0 := by
  rw [key_ofRat]
  simp [roundMag_zero]

/-- Rounding keeps the order. -/
theorem key_ofRat_mono (p q : ℚ) (h : p ≤ q) : key (ofRat p) ≤ key (ofRat q) := by
  rw [key_ofRat, key_ofRat]
  have hmin : ∀ r : ℚ, 0 ≤ min (roundMag |r|) (2 ^ 1024) :=
    fun r => le_min (roundMag_nonneg _) (by positivity)
  by_cases hp : p < 0
  · rw [if_pos hp]
    by_cases hq : q < 0
    · rw [if_pos hq]
      have habs : |q| ≤ |p| := by
        rw [abs_of_neg hp, abs_of_neg hq]
        linarith
      have := roundMag_mono _ _ (abs_nonneg q) habs
      have := min_le_min_right ((2 : ℚ) ^ 1024) this
      linarith
    · rw [if_neg hq]
      have h1 := hmin p
      have h2 := hmin q
      linarith
  · rw [if_neg hp, if_neg (by linarith)]
    have hp0 : 0 ≤ p := not_lt.mp hp
    have habs : |p| ≤ |q| := by
      rw [abs_of_nonneg hp0, abs_of_nonneg (le_trans hp0 h)]
      exact h
    exact min_le_min_right _ (roundMag_mono _ _ (abs_nonneg p) habs)

/-- A rounded number that is finite lies strictly inside `±2^1024`. -/
theorem ofRat_bounded (p r : ℚ) (h : (ofRat p).toRat? = some r) : |r| < 2 ^ 1024 := by
  unfold ofRat at h
  simp only [] at h
  by_cases h1 : (2 : ℚ) ^ 1024 ≤ roundMag |p|
  · rw [if_pos h1] at h
    cases hd : decide (p < 0) <;> rw [hd] at h <;> simp [inf, toRat?] at h
  · rw [if_neg h1] at h
    by_cases h2 : roundMag |p| = 0
    · rw [if_pos h2] at h
      cases hd : decide (p < 0) <;> rw [hd] at h <;> simp [zero, toRat?] at h <;>
        (rw [← h]; simp)
    · rw [if_neg h2] at h
      simp only [toRat?, Option.some.injEq] at h
      rw [← h]
      split
      · rw [abs_neg, abs_of_nonneg (roundMag_nonneg _)]
        exact not_le.mp h1
      · rw [abs_of_nonneg (roundMag_nonneg _)]
        exact not_le.mp h1

theorem ofRat_ne_nan (p : ℚ) : ofRat p ≠ nan := by
  unfold ofRat
  simp only []
  split
  · cases decide (p < 0) <;> simp [inf]
  · split
    · cases decide (p < 0) <;> simp [zero]
    · simp

/-- The sum of two finite values lies where the rounded exact sum lies. -/
theorem key_add_finite (a b : Float64) (x y : ℚ) (ha : a.toRat? = some x)
    (hb : b.toRat? = some y) : key (a + b) = key (ofRat (x + y)) := by
  rw [add_eq, add_finite a b x y ha hb]
  by_cases h : x + y = 0
  · rw [if_pos h, h, key_signedZero, key_ofRat_zero]
  · rw [if_neg h]

theorem add_finite_bounded (a b : Float64) (x y r : ℚ) (ha : a.toRat? = some x)
    (hb : b.toRat? = some y) (h : (a + b).toRat? = some r) : |r| < 2 ^ 1024 := by
  rw [add_eq, add_finite a b x y ha hb] at h
  by_cases h0 : x + y = 0
  · rw [if_pos h0] at h
    cases hs : (a.signbit && b.signbit) <;> rw [hs] at h <;> simp [zero, toRat?] at h <;>
      (rw [← h]; simp)
  · rw [if_neg h0] at h
    exact ofRat_bounded _ _ h

theorem add_finite_ne_nan (a b : Float64) (x y : ℚ) (ha : a.toRat? = some x)
    (hb : b.toRat? = some y) : a + b ≠ nan := by
  rw [add_eq, add_finite a b x y ha hb]
  split
  · cases (a.signbit && b.signbit) <;> simp [zero]
  · exact ofRat_ne_nan _

/-- Between two values that are not `NaN` and whose finite values lie inside
`±2^1024`, `<` is the order of the number line. -/
theorem key_lt_of_lt (a b : Float64)
    (ha : ∀ r, a.toRat? = some r → |r| < 2 ^ 1024)
    (hb : ∀ r, b.toRat? = some r → |r| < 2 ^ 1024) (h : a < b) : key a < key b := by
  rw [lt_iff] at h
  cases a with
  | fin x =>
    have hx := abs_lt.mp (ha x rfl)
    cases b with
    | fin y => simpa [lt, toRat?, key] using h
    | negZero => simpa [lt, toRat?, key] using h
    | posInf => exact hx.2
    | negInf => simp [lt, toRat?] at h
    | nan => simp [lt, toRat?] at h
  | negZero =>
    cases b with
    | fin y => simpa [lt, toRat?, key] using h
    | negZero => simp [lt, toRat?] at h
    | posInf => simp [key]
    | negInf => simp [lt, toRat?] at h
    | nan => simp [lt, toRat?] at h
  | posInf => cases b <;> simp [lt, toRat?] at h
  | negInf =>
    cases b with
    | fin y =>
      have hy := abs_lt.mp (hb y rfl)
      exact hy.1
    | negZero => simp [key]
    | posInf =>
      show -(2 : ℚ) ^ 1024 < 2 ^ 1024
      have : (0 : ℚ) < 2 ^ 1024 := by positivity
      linarith
    | negInf => simp [lt, toRat?] at h
    | nan => simp [lt, toRat?] at h
  | nan => cases b <;> simp [lt, toRat?] at h

/-- Adding a finite non-negative amount to a finite value does not give less
than subtracting it. -/
theorem add_not_lt_sub_finite (c d : Float64) (x δ : ℚ) (hc : c.toRat? = some x)
    (hd : d.toRat? = some δ) (hδ : 0 ≤ δ) : ¬ (c + d < c - d) := by
  intro h
  have hnd := toRat?_neg d δ hd
  have hk := key_lt_of_lt (c + d) (c - d)
    (fun r hr => add_finite_bounded c d x δ r hc hd hr)
    (fun r hr => add_finite_bounded c (neg d) x (-δ) r hc hnd hr) h
  rw [key_add_finite c d x δ hc hd] at hk
  have hsub : key (c - d) = key (ofRat (x + -δ)) := key_add_finite c (neg d) x (-δ) hc hnd
  rw [hsub] at hk
  have := key_ofRat_mono (x + -δ) (x + δ) (by linarith)
  linarith

/-- Adding an amount that is `NaN`, `+Inf`, or finite and not negative does not
give less than subtracting it. -/
theorem add_not_lt_sub (c d : Float64)
    (hd : d = nan ∨ d = posInf ∨ ∃ δ, d.toRat? = some δ ∧ 0 ≤ δ) : ¬ (c + d < c - d) := by
  rcases hd with rfl | rfl | ⟨δ, hd, hδ⟩
  · rw [lt_iff]
    cases c <;> simp [add_eq, sub_eq, add, neg, lt, toRat?]
  · rw [lt_iff]
    cases c <;> simp [add_eq, sub_eq, add, neg, lt, toRat?]
  · cases hc : c.toRat? with
    | some x => exact add_not_lt_sub_finite c d x δ hc hd hδ
    | none =>
      rw [lt_iff]
      cases c <;> simp [toRat?] at hc <;> cases d <;> simp [toRat?] at hd <;>
        first
        | (simp [add_eq, sub_eq, add, neg, lt, toRat?]; done)
        | (rename_i q; by_cases hq : q = 0 <;> simp [add_eq, sub_eq, add, neg, lt, toRat?, hq])

/-- The product of a value that is not negative with a positive finite factor
is `NaN`, `+Inf`, or finite and not negative. -/
theorem mul_pos_of_not_neg (m : Float64) (c : ℚ) (hc : 0 < c) (hm : ¬ m < 0) :
    m * fin c = nan ∨ m * fin c = posInf ∨ ∃ δ, (m * fin c).toRat? = some δ ∧ 0 ≤ δ := by
  have hc0 : c ≠ 0 := ne_of_gt hc
  have hsign : signbit (fin c) = false := by simp [signbit, not_lt.mpr (le_of_lt hc)]
  cases m with
  | fin x =>
    have hx : 0 ≤ x := by
      by_contra hneg
      apply hm
      rw [lt_iff]
      show lt (fin x) (fin ((0 : ℕ) : ℚ)) = true
      simp only [lt, toRat?, Nat.cast_zero, decide_eq_true_eq]
      exact not_le.mp hneg
    have hfx : signbit (fin x) = false := by simp [signbit, not_lt.mpr hx]
    rw [mul_eq]
    unfold mul
    simp only [toRat?]
    by_cases h0 : x * c = 0
    · rw [if_pos h0, hfx, hsign]
      exact Or.inr (Or.inr ⟨0, rfl, le_rfl⟩)
    · rw [if_neg h0]
      have hxc : 0 < x * c := lt_of_le_of_ne (mul_nonneg hx (le_of_lt hc)) (Ne.symm h0)
      unfold ofRat
      simp only [not_lt.mpr (le_of_lt hxc), decide_False, if_false]
      split
      · exact Or.inr (Or.inl rfl)
      · split
        · exact Or.inr (Or.inr ⟨0, rfl, le_rfl⟩)
        · exact Or.inr (Or.inr ⟨_, rfl, roundMag_nonneg _⟩)
  | negZero =>
    rw [mul_eq]
    unfold mul
    simp only [toRat?, zero_mul, if_true]
    refine Or.inr (Or.inr ⟨0, ?_, le_rfl⟩)
    cases (signbit negZero != signbit (fin c)) <;> rfl
  | posInf =>
    right; left
    rw [mul_eq]
    unfold mul
    simp [toRat?, hc0, signbit, inf, le_of_lt hc]
  | negInf =>
    exfalso
    apply hm
    rw [lt_iff]
    rfl
  | nan =>
    left
    rfl

end Float64

namespace Float64

/-- In the normal range, rounding moves a magnitude by at most `2^-53` of it. -/
theorem roundMag_err (q : ℚ) (hq : 0 < q) (he : -1022 ≤ ilog2 q) :
    |roundMag q - q| ≤ q / 2 ^ 53 := by
  obtain ⟨h1, _⟩ := ilog2_spec q hq
  unfold roundMag
  simp only []
  rw [max_eq_left he]
  generalize ilog2 q = e at *
  have hu := two_zpow_pos (e - 52)
  obtain ⟨s1, s2, _⟩ := roundHalfEven_spec (q / 2 ^ (e - 52)) (div_nonneg (le_of_lt hq) (le_of_lt hu))
  generalize (roundHalfEven (q / 2 ^ (e - 52)) : ℚ) = n at *
  rw [le_div_iff₀ hu] at s1
  rw [div_le_iff₀ hu] at s2
  have hhalf : (2 : ℚ) ^ (e - 52) = 2 ^ e / 2 ^ 52 := by
    rw [zpow_sub₀ (by norm_num)]
    norm_cast
  have hbound : (2 : ℚ) ^ (e - 52) / 2 ≤ q / 2 ^ 53 := by
    rw [hhalf, div_div]
    have : (2 : ℚ) ^ 52 * 2 = 2 ^ 53 := by norm_num
    rw [this]
    exact div_le_div_of_nonneg_right h1 (by positivity)
  rw [abs_le]
  constructor <;> linarith

/-- A number in the normal range rounds to a finite value within `2^-53` of
it, relatively. -/
theorem ofRat_err (p : ℚ) (hlo : 1 / 2 ^ 1022 ≤ |p|) (hhi : |p| < 2 ^ 1023) :
    ∃ v, (ofRat p).toRat? = some v ∧ |v - p| ≤ |p| / 2 ^ 53 := by
  have hpos : 0 < |p| := lt_of_lt_of_le (by positivity) hlo
  have hlo' : (2 : ℚ) ^ (-1022 : ℤ) ≤ |p| := by
    have : (2 : ℚ) ^ (-1022 : ℤ) = 1 / 2 ^ 1022 := by
      rw [zpow_neg, one_div]
      norm_cast
    rw [this]
    exact hlo
  have h1023 : (2 : ℚ) ^ (1023 : ℤ) = 2 ^ 1023 := by
    rw [zpow_ofNat]
  have hhi' : |p| < (2 : ℚ) ^ (1023 : ℤ) := by
    rw [h1023]
    exact hhi
  obtain ⟨h1, h2⟩ := ilog2_spec |p| hpos
  have he1 : -1022 ≤ ilog2 |p| := by
    have := two_zpow_lt_iff.mp (lt_of_le_of_lt hlo' h2)
    omega
  have he2 : ilog2 |p| < 1023 := two_zpow_lt_iff.mp (lt_of_le_of_lt h1 hhi')
  have hr1 := roundMag_le |p| hpos
  rw [max_eq_left he1] at hr1
  have hr2 := le_roundMag |p| hpos he1
  have hrpos : 0 < roundMag |p| := lt_of_lt_of_le (two_zpow_pos _) hr2
  have hrlt : roundMag |p| < 2 ^ 1024 := by
    have h3 : (2 : ℚ) ^ (ilog2 |p| + 1) ≤ 2 ^ (1023 : ℤ) := two_zpow_le (by omega)
    have h4 : (2 : ℚ) ^ 1023 < 2 ^ 1024 := pow_lt_pow_right₀ (by norm_num) (by norm_num)
    rw [h1023] at h3
    exact lt_of_le_of_lt (le_trans hr1 h3) h4
  have herr := roundMag_err |p| hpos he1
  unfold ofRat
  simp only []
  rw [if_neg (not_le.mpr hrlt), if_neg (ne_of_gt hrpos)]
  refine ⟨_, rfl, ?_⟩
  by_cases hp : p < 0
  · rw [if_pos hp]
    have : -roundMag |p| - p = -(roundMag |p| - |p|) := by
      rw [abs_of_neg hp]
      ring
    rw [this, abs_neg]
    exact herr
  · rw [if_neg hp]
    have : roundMag |p| - p = roundMag |p| - |p| := by
      rw [abs_of_nonneg (not_lt.mp hp)]
    rw [this]
    exact herr

/-- The variable `degreesPerMeter`. -/
theorem degreesPerMeter_eq :
    ofRat (1 / 111319.9) = fin (5302697993428899 / 590295810358705651712) := by
  decide!

/-- The product of a finite number of meters with `degreesPerMeter` is finite
and within `2^-51` of the quotient by `111319.9`, relatively, as long as the
number of meters is neither huge nor tiny. -/
theorem mul_degreesPerMeter_err (x : ℚ) (hlo : 1 / 2 ^ 1005 ≤ |x|) (hhi : |x| < 2 ^ 1024) :
    ∃ v, (fin x * ofRat (1 / 111319.9)).toRat? = some v ∧
      |v - x / 111319.9| ≤ |x / 111319.9| / 2 ^ 51 := by
  rw [degreesPerMeter_eq, mul_eq]
  unfold mul
  simp only [toRat?]
  have hx0 : x ≠ 0 := by
    intro h
    rw [h, abs_zero] at hlo
    have : (0 : ℚ) < 1 / 2 ^ 1005 := by positivity
    linarith
  have hxpos : 0 < |x| := abs_pos.mpr hx0
  have hc0 : (5302697993428899 / 590295810358705651712 : ℚ) ≠ 0 := by norm_num
  rw [if_neg (mul_ne_zero hx0 hc0)]
  have habs : |x * (5302697993428899 / 590295810358705651712)| =
      |x| * (5302697993428899 / 590295810358705651712) := by
    rw [abs_mul, abs_of_pos (by norm_num : (0 : ℚ) < 5302697993428899 / 590295810358705651712)]
  have hlo2 : 1 / 2 ^ 1022 ≤ |x * (5302697993428899 / 590295810358705651712)| := by
    rw [habs]
    have h17 : (1 : ℚ) / 2 ^ 17 ≤ 5302697993428899 / 590295810358705651712 := by norm_num
    have hsplit : (1 : ℚ) / 2 ^ 1022 = 1 / 2 ^ 1005 * (1 / 2 ^ 17) := by
      rw [one_div_mul_one_div, ← pow_add]
    rw [hsplit]
    exact mul_le_mul hlo h17 (by positivity) (le_of_lt hxpos)
  have hhi2 : |x * (5302697993428899 / 590295810358705651712)| < 2 ^ 1023 := by
    rw [habs]
    have h1 : (5302697993428899 / 590295810358705651712 : ℚ) ≤ 1 / 2 := by norm_num
    have hsplit : (2 : ℚ) ^ 1023 = 2 ^ 1024 * (1 / 2) := by
      rw [pow_succ]
      ring
    rw [hsplit]
    calc |x| * (5302697993428899 / 590295810358705651712)
        ≤ |x| * (1 / 2) := mul_le_mul_of_nonneg_left h1 (le_of_lt hxpos)
      _ < 2 ^ 1024 * (1 / 2) := mul_lt_mul_of_pos_right hhi (by norm_num)
  obtain ⟨v, hv, herr⟩ := ofRat_err _ hlo2 hhi2
  refine ⟨v, hv, ?_⟩
  rw [habs] at herr
  have hq : |x / 111319.9| = |x| / 111319.9 := by
    rw [abs_div, abs_of_pos (by norm_num : (0 : ℚ) < 111319.9)]
  rw [hq]
  have hc : |(5302697993428899 / 590295810358705651712 : ℚ) - 1 / 111319.9| ≤
      1 / 111319.9 / 2 ^ 53 := by
    rw [abs_le]
    constructor <;> norm_num
  have hstep : |x * (5302697993428899 / 590295810358705651712) - x / 111319.9| ≤
      |x| * (1 / 111319.9 / 2 ^ 53) := by
    have : x * (5302697993428899 / 590295810358705651712) - x / 111319.9 =
        x * (5302697993428899 / 590295810358705651712 - 1 / 111319.9) := by ring
    rw [this, abs_mul]
    exact mul_le_mul_of_nonneg_left hc (le_of_lt hxpos)
  have htri : |v - x / 111319.9| ≤
      |v - x * (5302697993428899 / 590295810358705651712)| +
      |x * (5302697993428899 / 590295810358705651712) - x / 111319.9| := by
    have : v - x / 111319.9 = (v - x * (5302697993428899 / 590295810358705651712)) +
        (x * (5302697993428899 / 590295810358705651712) - x / 111319.9) := by ring
    rw [this]
    exact abs_add _ _
  have hcle : (5302697993428899 / 590295810358705651712 : ℚ) ≤ 1 / 111319.9 * (1 + 1 / 2 ^ 53) := by
    norm_num
  have h5 : |x| * (5302697993428899 / 590295810358705651712) / 2 ^ 53 ≤
      |x| * (1 / 111319.9 * (1 + 1 / 2 ^ 53)) / 2 ^ 53 :=
    div_le_div_of_nonneg_right (mul_le_mul_of_nonneg_left hcle (le_of_lt hxpos)) (by positivity)
  have hfinal : |x| * (1 / 111319.9 * (1 + 1 / 2 ^ 53)) / 2 ^ 53 + |x| * (1 / 111319.9 / 2 ^ 53) ≤
      |x| / 111319.9 / 2 ^ 51 := by
    have : |x| * (1 / 111319.9 * (1 + 1 / 2 ^ 53)) / 2 ^ 53 + |x| * (1 / 111319.9 / 2 ^ 53) =
        |x| * ((1 / 111319.9 * (1 + 1 / 2 ^ 53)) / 2 ^ 53 + 1 / 111319.9 / 2 ^ 53) := by ring
    rw [this]
    have h2 : |x| / 111319.9 / 2 ^ 51 = |x| * (1 / 111319.9 / 2 ^ 51) := by ring
    rw [h2]
    exact mul_le_mul_of_nonneg_left (by norm_num) (le_of_lt hxpos)
  linarith

end Float64

/-! ## The comparator -/

theorem less_eq_true_iff (a b : Spot) :
    less a b = true ↔
      (if math.Abs (a.Distance - b.Distance) < 50 then a.Rating > b.Rating
       else a.Distance < b.Distance) := by
  unfold less
  split <;> simp

theorem less_asymm (a b : Spot) (h : less a b = true) : less b a = false := by
  rw [Bool.eq_false_iff]
  intro h2
  rw [less_eq_true_iff] at h h2
  rw [Float64.abs_sub_swap b.Distance a.Distance] at h2
  split at h
  · rw [if_pos (by assumption)] at h2
    exact Float64.lt_asymm _ _ h h2
  · rw [if_neg (by assumption)] at h2
    exact Float64.lt_asymm _ _ h h2

theorem notInverted_iff (a b : Spot) : NotInverted a b ↔ less b a = false := by
  rw [Bool.eq_false_iff, Ne, less_eq_true_iff, Float64.abs_sub_swap b.Distance a.Distance]
  unfold NotInverted
  by_cases h : math.Abs (a.Distance - b.Distance) < 50
  · rw [if_pos h]
    exact ⟨fun hn => hn.1 h, fun hn => ⟨fun _ => hn, fun hh => absurd h hh⟩⟩
  · rw [if_neg h]
    exact ⟨fun hn => hn.2 h, fun hn => ⟨fun hh => absurd hh h, fun _ => hn⟩⟩

/-- The band test fails as soon as one of the two distances is not finite. -/
theorem band_of_nonfinite (a b : Float64) (h : a.toRat? = none ∨ b.toRat? = none) :
    ¬ math.Abs (a - b) < 50 := by
  rw [Float64.abs_sub_nonfinite a b h, Float64.lt_iff]
  split <;> simp [Float64.lt, Float64.toRat?]

/-- C1, as the code has it. The comparator handed to `sort.Slice` is the banding
rule on the rounded difference: when the `float64` difference of the two
distances is below 50 in absolute value, `less a b` holds exactly when `a` has
the greater rating; otherwise it holds exactly when `a` has the smaller
distance. For finite distances `x` and `y` the difference rounds below 50
exactly when `|x - y| < 50 - 2^-48`; with a distance that is not finite the
test fails. -/
theorem less_banding_rounded (a b : Spot) :
    (math.Abs (a.Distance - b.Distance) < 50 → (less a b = true ↔ a.Rating > b.Rating)) ∧
    (¬ math.Abs (a.Distance - b.Distance) < 50 → (less a b = true ↔ a.Distance < b.Distance)) ∧
    (∀ x y : ℚ, a.Distance.toRat? = some x → b.Distance.toRat? = some y →
      (math.Abs (a.Distance - b.Distance) < 50 ↔ |x - y| < 50 - 1 / 2 ^ 48)) ∧
    (a.Distance.toRat? = none ∨ b.Distance.toRat? = none →
      ¬ math.Abs (a.Distance - b.Distance) < 50) := by
  refine ⟨?_, ?_, ?_, ?_⟩
  · intro h
    rw [less_eq_true_iff, if_pos h]
  · intro h
    rw [less_eq_true_iff, if_neg h]
  · intro x y hx hy
    exact Float64.abs_sub_lt_fifty _ _ x y hx hy
  · exact band_of_nonfinite _ _

/-- Counterexample to C1 as stated: the spots at distances `2^-70` and 50
differ by less than 50, and the first has the smaller rating, yet the first is
`less` than the second; likewise for the distances `20 + 2^-48` and 70. In both
cases the `float64` difference is 50. -/
theorem less_not_exact_banding :
    ¬ BandingRuleExact (spotAt "B" (1 / 2 ^ 70) 1) (spotAt "A" 50 5) ∧
    ¬ BandingRuleExact (spotAt "B" (20 + 1 / 2 ^ 48) 1) (spotAt "A" 70 5) ∧
    less (spotAt "B" (1 / 2 ^ 70) 1) (spotAt "A" 50 5) = true ∧
    less (spotAt "B" (20 + 1 / 2 ^ 48) 1) (spotAt "A" 70 5) = true ∧
    (Float64.fin (1 / 2 ^ 70) - 50 : Float64) = Float64.fin (-50) ∧
    (Float64.fin (20 + 1 / 2 ^ 48) - 70 : Float64) = Float64.fin (-50) := by
  refine ⟨?_, ?_, by decide!, by decide!, by decide!, by decide!⟩
  · intro h
    have h1 := (h (1 / 2 ^ 70) 50 rfl rfl).1 (by rw [abs_lt]; constructor <;> norm_num)
    have h2 : less (spotAt "B" (1 / 2 ^ 70) 1) (spotAt "A" 50 5) = true := by decide!
    exact absurd (h1.mp h2) (by decide!)
  · intro h
    have h1 := (h (20 + 1 / 2 ^ 48) 70 rfl rfl).1 (by rw [abs_lt]; constructor <;> norm_num)
    have h2 : less (spotAt "B" (20 + 1 / 2 ^ 48) 1) (spotAt "A" 70 5) = true := by decide!
    exact absurd (h1.mp h2) (by decide!)

/-- C10. The comparator is not transitive: three spots with distances 70, 40, 10
and ratings 3, 2, 1 have `less a b` and `less b c` but not `less a c`. -/
theorem less_not_transitive :
    ∃ a b c : Spot,
      a.Distance = 70 ∧ b.Distance = 40 ∧ c.Distance = 10 ∧
      a.Rating = 3 ∧ b.Rating = 2 ∧ c.Rating = 1 ∧
      math.Abs (a.Distance - b.Distance) < 50 ∧ math.Abs (b.Distance - c.Distance) < 50 ∧
      ¬ math.Abs (a.Distance - c.Distance) < 50 ∧
      less a b = true ∧ less b c = true ∧ less a c = false :=
  ⟨spotAt "A" 70 3, spotAt "B" 40 2, spotAt "C" 10 1,
    rfl, rfl, rfl, rfl, rfl, rfl, by decide!, by decide!, by decide!, by decide!, by decide!,
    by decide!⟩

/-! ## The insertion sort -/

theorem sort.sinkLeft_perm {α : Type} (less : α → α → Bool) (x : α) (done : List α) :
    (sort.sinkLeft less x done).Perm (x :: done) := by
  induction done with
  | nil => exact List.Perm.refl _
  | cons p rest ih =>
    unfold sort.sinkLeft
    split
    · exact (List.Perm.cons p ih).trans (List.Perm.swap x p rest)
    · exact List.Perm.refl _

theorem sort.insertionLoop_perm {α : Type} (less : α → α → Bool) (todo done : List α) :
    (sort.insertionLoop less done todo).Perm (done ++ todo) := by
  induction todo generalizing done with
  | nil => simp [sort.insertionLoop]
  | cons x todo ih =>
    unfold sort.insertionLoop
    refine (ih _).trans ?_
    refine (List.Perm.append_right todo (sort.sinkLeft_perm less x done)).trans ?_
    exact List.perm_middle.symm

theorem sort.insertionSortLessFunc_perm {α : Type} (less : α → α → Bool) (data : List α) :
    (sort.insertionSortLessFunc less data).Perm data := by
  simpa [sort.insertionSortLessFunc] using sort.insertionLoop_perm less data []

theorem sort.sinkLeft_head {α : Type} (less : α → α → Bool) (x : α) (done : List α) :
    ∀ y ∈ (sort.sinkLeft less x done).head?, y = x ∨ y ∈ done.head? := by
  intro y hy
  cases done with
  | nil => left; simp [sort.sinkLeft] at hy; exact hy.symm
  | cons p rest =>
    unfold sort.sinkLeft at hy
    split at hy
    · right; simpa using hy
    · left; simp at hy; exact hy.symm

/-- Sinking `x` into a run in which no element is `less` than its left
neighbour gives such a run again, provided `less` is asymmetric on the elements
at hand. -/
theorem sort.sinkLeft_chain {α : Type} (less : α → α → Bool) (x : α) (done : List α)
    (hasymm : ∀ a ∈ x :: done, ∀ b ∈ x :: done, less a b = true → less b a = false)
    (h : List.Chain' (fun u v => less u v = false) done) :
    List.Chain' (fun u v => less u v = false) (sort.sinkLeft less x done) := by
  induction done with
  | nil => simp [sort.sinkLeft]
  | cons p rest ih =>
    unfold sort.sinkLeft
    rw [List.chain'_cons'] at h
    split
    · rename_i hlt
      rw [List.chain'_cons']
      refine ⟨?_, ih (fun a ha b hb => hasymm a ?_ b ?_) h.2⟩
      · intro y hy
        rcases sort.sinkLeft_head less x rest y hy with rfl | hy'
        · exact hasymm _ (by simp) _ (by simp) hlt
        · exact h.1 y hy'
      · rcases List.mem_cons.mp ha with rfl | ha
        · simp
        · simp [ha]
      · rcases List.mem_cons.mp hb with rfl | hb
        · simp
        · simp [hb]
    · rename_i hlt
      rw [List.chain'_cons']
      refine ⟨?_, List.chain'_cons'.mpr h⟩
      intro y hy
      simp only [List.head?_cons, Option.mem_def, Option.some.injEq] at hy
      subst hy
      simpa using hlt

theorem sort.insertionLoop_chain {α : Type} (less : α → α → Bool) (todo done : List α)
    (hasymm : ∀ a ∈ done ++ todo, ∀ b ∈ done ++ todo, less a b = true → less b a = false)
    (h : List.Chain' (fun u v => less u v = false) done) :
    List.Chain' (fun a b => less b a = false) (sort.insertionLoop less done todo) := by
  induction todo generalizing done with
  | nil =>
    unfold sort.insertionLoop
    rw [List.chain'_reverse]
    exact h
  | cons x todo ih =>
    unfold sort.insertionLoop
    have hsub : ∀ a, a ∈ sort.sinkLeft less x done ++ todo → a ∈ done ++ x :: todo := by
      intro a ha
      rcases List.mem_append.mp ha with ha | ha
      · rcases List.mem_cons.mp ((sort.sinkLeft_perm less x done).mem_iff.mp ha) with rfl | ha
        · simp
        · simp [ha]
      · simp [ha]
    refine ih _ (fun a ha b hb => hasymm a (hsub a ha) b (hsub b hb)) ?_
    refine sort.sinkLeft_chain less x done (fun a ha b hb => hasymm a ?_ b ?_) h
    · rcases List.mem_cons.mp ha with rfl | ha
      · simp
      · simp [ha]
    · rcases List.mem_cons.mp hb with rfl | hb
      · simp
      · simp [hb]

/-- After the insertion sort no element is `less` than its left neighbour,
provided `less` is asymmetric on the elements of the slice. -/
theorem sort.insertionSortLessFunc_chain {α : Type} (less : α → α → Bool) (data : List α)
    (hasymm : ∀ a ∈ data, ∀ b ∈ data, less a b = true → less b a = false) :
    List.Chain' (fun a b => less b a = false) (sort.insertionSortLessFunc less data) :=
  sort.insertionLoop_chain less data [] (by simpa using hasymm) List.chain'_nil

/-- A relation that holds between neighbours holds between any earlier and any
later element when it is transitive on the elements of the list. -/
theorem List.pairwise_of_chain_of_trans_mem {α : Type} (R : α → α → Prop) (l : List α)
    (htrans : ∀ a ∈ l, ∀ b ∈ l, ∀ c ∈ l, R a b → R b c → R a c) (h : List.Chain' R l) :
    List.Pairwise R l := by
  induction l with
  | nil => exact List.Pairwise.nil
  | cons a t ih =>
    rw [List.chain'_cons'] at h
    have ht : List.Pairwise R t :=
      ih (fun x hx y hy z hz => htrans x (by simp [hx]) y (by simp [hy]) z (by simp [hz])) h.2
    rw [List.pairwise_cons]
    refine ⟨?_, ht⟩
    cases t with
    | nil => simp
    | cons b0 t1 =>
      have hab0 : R a b0 := h.1 b0 (by simp)
      intro b hb
      rcases List.mem_cons.mp hb with rfl | hb
      · exact hab0
      · have := (List.pairwise_cons.mp ht).1 b hb
        exact htrans a (by simp) b0 (by simp) b (by simp [hb]) hab0 this

/-- The insertion sort fulfils what is assumed of the quicksort. -/
theorem sort.insertionSortLessFunc_sorted {α : Type} (less : α → α → Bool) (data : List α)
    (hasymm : ∀ a ∈ data, ∀ b ∈ data, less a b = true → less b a = false)
    (htrans : ∀ a ∈ data, ∀ b ∈ data, ∀ c ∈ data,
      less a b = false → less b c = false → less a c = false) :
    List.Pairwise (fun a b => less b a = false) (sort.insertionSortLessFunc less data) := by
  have hperm := sort.insertionSortLessFunc_perm less data
  refine List.pairwise_of_chain_of_trans_mem _ _ ?_
    (sort.insertionSortLessFunc_chain less data hasymm)
  intro a ha b hb c hc hab hbc
  exact htrans c (hperm.mem_iff.mp hc) b (hperm.mem_iff.mp hb) a (hperm.mem_iff.mp ha) hbc hab

theorem sampleLibrary_contract : sort.SliceContract sampleLibrary := by
  intro less x
  exact ⟨sort.insertionSortLessFunc_perm less x,
    fun hasymm htrans => sort.insertionSortLessFunc_sorted less x hasymm htrans⟩

/-! ## The ranking step -/

theorem rankSpots_short (lib : Library) (spotList : List Spot) (hlen : spotList.length ≤ 12) :
    rankSpots lib spotList = sort.insertionSortLessFunc less spotList := by
  simp [rankSpots, sort.Slice, hlen]

theorem rankSpots_perm (lib : Library) (hlib : sort.SliceContract lib) (spotList : List Spot) :
    (rankSpots lib spotList).Perm spotList := by
  unfold rankSpots sort.Slice
  split
  · exact sort.insertionSortLessFunc_perm less spotList
  · exact (hlib less spotList).1

theorem rankSpots_pairwise (lib : Library) (hlib : sort.SliceContract lib) (spotList : List Spot)
    (htrans : ∀ a ∈ spotList, ∀ b ∈ spotList, ∀ c ∈ spotList,
      less a b = false → less b c = false → less a c = false) :
    List.Pairwise (fun a b => less b a = false) (rankSpots lib spotList) := by
  unfold rankSpots sort.Slice
  split
  · exact sort.insertionSortLessFunc_sorted less spotList
      (fun a _ b _ h => less_asymm a b h) htrans
  · exact (hlib less spotList).2 (fun a _ b _ h => less_asymm a b h) htrans

/-- C2, as the code has it. For every list of spots returned by the store, the
ranked list is a rearrangement of it. When there are at most twelve spots, no
spot of the ranked list is immediately followed by one that beats it: for `a`
immediately before `b`, if the rounded distances differ by less than 50 then
`b` does not have the greater rating, and otherwise `b` does not have the
smaller distance. When the comparator is consistent on the spots of the list
(`a` not before `b` and `b` not before `c` give `a` not before `c`), the same
holds for any `a` before `b`, neighbours or not, whatever the number of spots,
given that the library's quicksort sorts under a consistent comparator. -/
theorem rankSpots_order (lib : Library) (hlib : sort.SliceContract lib) (spotList : List Spot) :
    (rankSpots lib spotList).Perm spotList ∧
    (spotList.length ≤ 12 → List.Chain' NotInverted (rankSpots lib spotList)) ∧
    ((∀ a ∈ spotList, ∀ b ∈ spotList, ∀ c ∈ spotList,
        less a b = false → less b c = false → less a c = false) →
      List.Pairwise NotInverted (rankSpots lib spotList)) := by
  refine ⟨rankSpots_perm lib hlib spotList, ?_, ?_⟩
  · intro hlen
    rw [rankSpots_short lib spotList hlen]
    have h := sort.insertionSortLessFunc_chain less spotList (fun a _ b _ h => less_asymm a b h)
    exact h.imp fun {a b} hab => (notInverted_iff a b).mpr hab
  · intro htrans
    exact (rankSpots_pairwise lib hlib spotList htrans).imp
      fun {a b} hab => (notInverted_iff a b).mpr hab

/-- Witness for C2: the insertion sort as the library's sort, on three spots
that the comparator orders in a cycle. -/
theorem rankSpots_order_witness :
    sort.SliceContract sampleLibrary ∧
    rankSpots sampleLibrary [spotAt "A" 70 3, spotAt "B" 40 2, spotAt "C" 10 1] =
      [spotAt "A" 70 3, spotAt "B" 40 2, spotAt "C" 10 1] ∧
    (rankSpots sampleLibrary [spotAt "A" 70 3, spotAt "B" 40 2, spotAt "C" 10 1]).Perm
      [spotAt "A" 70 3, spotAt "B" 40 2, spotAt "C" 10 1] ∧
    List.Chain' NotInverted
      (rankSpots sampleLibrary [spotAt "A" 70 3, spotAt "B" 40 2, spotAt "C" 10 1]) :=
  ⟨sampleLibrary_contract, by decide!,
   (rankSpots_order sampleLibrary sampleLibrary_contract _).1,
   (rankSpots_order sampleLibrary sampleLibrary_contract _).2.1 (by decide)⟩

/-- No arrangement of a list containing the three spots of the cycle is ranked
by the banding rule. -/
theorem no_banding_rank_of_cycle (l : List Spot)
    (ha : spotAt "A" 70 3 ∈ l) (hb : spotAt "B" 40 2 ∈ l) (hc : spotAt "C" 10 1 ∈ l) :
    ¬ RankedByBanding l := by
  intro h
  have key : ∀ i j : Fin l.length, less (l.get i) (l.get j) = true → i < j := by
    intro i j hij
    rw [less_eq_true_iff] at hij
    by_cases hband : math.Abs ((l.get i).Distance - (l.get j).Distance) < 50
    · rw [if_pos hband] at hij
      exact ((h i j).1 hband).mpr hij
    · rw [if_neg hband] at hij
      exact ((h i j).2 hband).mpr hij
  obtain ⟨i, hi⟩ := List.get_of_mem ha
  obtain ⟨j, hj⟩ := List.get_of_mem hb
  obtain ⟨k, hk⟩ := List.get_of_mem hc
  have h1 := key i j (by rw [hi, hj]; decide!)
  have h2 := key j k (by rw [hj, hk]; decide!)
  have h3 := key k i (by rw [hk, hi]; decide!)
  exact absurd (lt_trans (lt_trans h1 h2) h3) (lt_irrefl _)

/-- Counterexample to C2 as stated: when the store returns the three spots with
distances 70, 40, 10 and ratings 3, 2, 1, the ranked list is not ordered by the
banding rule, whatever the library does; the last spot of the ranked list beats
the first. -/
theorem rankSpots_not_banding :
    (¬ ∃ lib : Library,
      RankedByBanding (rankSpots lib [spotAt "A" 70 3, spotAt "B" 40 2, spotAt "C" 10 1])) ∧
    (∀ lib : Library, rankSpots lib [spotAt "A" 70 3, spotAt "B" 40 2, spotAt "C" 10 1] =
      [spotAt "A" 70 3, spotAt "B" 40 2, spotAt "C" 10 1]) ∧
    ¬ NotInverted (spotAt "A" 70 3) (spotAt "C" 10 1) := by
  have hshort : ∀ lib : Library,
      rankSpots lib [spotAt "A" 70 3, spotAt "B" 40 2, spotAt "C" 10 1] =
        [spotAt "A" 70 3, spotAt "B" 40 2, spotAt "C" 10 1] := by
    intro lib
    rw [rankSpots_short lib _ (by decide)]
    decide!
  refine ⟨?_, hshort, ?_⟩
  · rintro ⟨lib, h⟩
    rw [hshort lib] at h
    exact no_banding_rank_of_cycle _ (by simp) (by simp) (by simp) h
  · rw [notInverted_iff]
    decide!

/-! ## Geometry helper -/

/-- C3, as the code has it. `calculateSquareCoordinates` returns
`(lon - d, lat - d, lon + d, lat + d)` where `d` is the `float64` product of
`meters` and the `float64` nearest to `1 / 111319.9`, and each sum and
difference is rounded to the nearest `float64`. When `meters` is not negative,
the third and fourth results are not below the first and second. For a finite
number `x` of meters with `2^-1005 ≤ |x| < 2^1024`, `d` is finite and differs
from `x / 111319.9` by at most `2^-51` of it. For `lon = 0`, `lat = 0` and the
`float64` nearest to `111319.9` the result is `(-1, -1, 1, 1)`. -/
theorem calculateSquareCoordinates_rounded (centerLongitude centerLatitude meters : Float64) :
    calculateSquareCoordinates centerLongitude centerLatitude meters =
      (centerLongitude - meters * Float64.ofRat (1 / 111319.9),
       centerLatitude - meters * Float64.ofRat (1 / 111319.9),
       centerLongitude + meters * Float64.ofRat (1 / 111319.9),
       centerLatitude + meters * Float64.ofRat (1 / 111319.9)) ∧
    (¬ meters < 0 →
      ¬ (calculateSquareCoordinates centerLongitude centerLatitude meters).2.2.1 <
          (calculateSquareCoordinates centerLongitude centerLatitude meters).1 ∧
      ¬ (calculateSquareCoordinates centerLongitude centerLatitude meters).2.2.2 <
          (calculateSquareCoordinates centerLongitude centerLatitude meters).2.1) ∧
    (∀ x : ℚ, meters = Float64.fin x → 1 / 2 ^ 1005 ≤ |x| → |x| < 2 ^ 1024 →
      ∃ d : ℚ, (meters * Float64.ofRat (1 / 111319.9)).toRat? = some d ∧
        |d - x / 111319.9| ≤ |x / 111319.9| / 2 ^ 51) ∧
    calculateSquareCoordinates 0 0 (Float64.ofRat 111319.9) =
      (Float64.fin (-1), Float64.fin (-1), Float64.fin 1, Float64.fin 1) := by
  refine ⟨rfl, ?_, ?_, by decide!⟩
  · intro hm
    have hd := Float64.mul_pos_of_not_neg meters (5302697993428899 / 590295810358705651712)
      (by norm_num) hm
    rw [← Float64.degreesPerMeter_eq] at hd
    exact ⟨Float64.add_not_lt_sub centerLongitude _ hd,
      Float64.add_not_lt_sub centerLatitude _ hd⟩
  · intro x hx hlo hhi
    rw [hx]
    exact Float64.mul_degreesPerMeter_err x hlo hhi

/-- Counterexample to C3 as stated. For 19 meters around `(0, 0)` the result is
neither the tuple built with the `float64` quotient `19 / 111319.9` nor the
tuple of exact rational arithmetic. For the largest `float64` as longitude and
as number of meters the third result is `+Inf`. For a negative number of
meters the first two results are the greater ones: around `(10, 20)` with the
`float64` nearest to `-111319.9` the result is `(11, 21, 9, 19)`. -/
theorem calculateSquareCoordinates_not_exact :
    calculateSquareCoordinates 0 0 19 ≠
      (0 - 19 / Float64.ofRat 111319.9, 0 - 19 / Float64.ofRat 111319.9,
       0 + 19 / Float64.ofRat 111319.9, 0 + 19 / Float64.ofRat 111319.9) ∧
    calculateSquareCoordinates 0 0 19 ≠
      (Float64.fin (0 - 19 / 111319.9), Float64.fin (0 - 19 / 111319.9),
       Float64.fin (0 + 19 / 111319.9), Float64.fin (0 + 19 / 111319.9)) ∧
    (calculateSquareCoordinates (Float64.fin (2 ^ 1024 - 2 ^ 971)) 0
      (Float64.fin (2 ^ 1024 - 2 ^ 971))).2.2.1 = Float64.posInf ∧
    calculateSquareCoordinates 10 20 (Float64.ofRat (-111319.9)) =
      (Float64.fin 11, Float64.fin 21, Float64.fin 9, Float64.fin 19) ∧
    (Float64.fin 9 : Float64) < Float64.fin 11 := by
  refine ⟨by decide!, by decide!, by decide!, by decide!, by decide!⟩

/-! ## Validation -/

theorem parseShape_ok_iff (lib : Library) (s : String) (b : Bool) :
    parseShape lib s = .ok b ↔
      (strings.ToLower lib s = "circle" ∨ strings.ToLower lib s = "square") ∧
      (b = true ↔ strings.ToLower lib s = "circle") := by
  unfold parseShape
  simp only []
  by_cases h1 : strings.ToLower lib s = "circle"
  · simp [h1]
  · by_cases h2 : strings.ToLower lib s = "square"
    · simp [h1, h2]
    · simp [h1, h2]

theorem parseShape_error_iff (lib : Library) (s : String) (site : FatalSite) :
    parseShape lib s = .error site ↔
      site = .isCircle ∧
      strings.ToLower lib s ≠ "circle" ∧ strings.ToLower lib s ≠ "square" := by
  unfold parseShape
  simp only []
  by_cases h : strings.ToLower lib s ≠ "circle" ∧ strings.ToLower lib s ≠ "square"
  · rw [if_pos h]
    constructor
    · intro he
      injection he with he
      exact ⟨he.symm, h⟩
    · rintro ⟨rfl, _⟩
      rfl
  · rw [if_neg h]
    constructor
    · intro he
      cases he
    · rintro ⟨_, h2⟩
      exact absurd h2 h

theorem parseParams_ok_iff (lib : Library) (r : Request) (p : Params) :
    parseParams lib r = .ok p ↔
      strconv.ParseFloat r.latitude = .ok p.latitude ∧
      strconv.ParseFloat r.longitude = .ok p.longitude ∧
      strconv.ParseFloat r.radius = .ok p.radius ∧
      parseShape lib r.isCircle = .ok p.isCircle := by
  unfold parseParams
  cases h1 : strconv.ParseFloat r.latitude with
  | error e => simp
  | ok a =>
    cases h2 : strconv.ParseFloat r.longitude with
    | error e => simp
    | ok b =>
      cases h3 : strconv.ParseFloat r.radius with
      | error e => simp
      | ok c =>
        cases h4 : parseShape lib r.isCircle with
        | error e => simp
        | ok d =>
          obtain ⟨pa, pb, pc, pd⟩ := p
          simp

theorem strings.ToLower_ascii (lib : Library) (s : String)
    (h : s.data.all (fun c => c.toNat < 128) = true) :
    strings.ToLower lib s = ⟨s.data.map toLowerASCII⟩ := by
  unfold strings.ToLower
  rw [if_pos h]

/-- On a request whose shape is an ASCII string, validation does not consult
the Unicode table. -/
theorem parseParams_lib_indep (lib lib' : Library) (r : Request)
    (h : r.isCircle.data.all (fun c => c.toNat < 128) = true) :
    parseParams lib r = parseParams lib' r := by
  unfold parseParams parseShape
  rw [strings.ToLower_ascii lib _ h, strings.ToLower_ascii lib' _ h]

theorem parseParams_error_of_invalid (lib : Library) (r : Request)
    (h : InvalidParameter lib r) :
    ∃ site, site ∈ [FatalSite.latitude, .longitude, .radius, .isCircle] ∧
      parseParams lib r = .error site := by
  unfold parseParams
  cases h1 : strconv.ParseFloat r.latitude with
  | error e => exact ⟨_, by simp, rfl⟩
  | ok a =>
    cases h2 : strconv.ParseFloat r.longitude with
    | error e => exact ⟨_, by simp, rfl⟩
    | ok b =>
      cases h3 : strconv.ParseFloat r.radius with
      | error e => exact ⟨_, by simp, rfl⟩
      | ok c =>
        cases h4 : parseShape lib r.isCircle with
        | error e =>
          have := ((parseShape_error_iff lib _ _).mp h4).1
          subst this
          exact ⟨_, by simp, rfl⟩
        | ok d =>
          exfalso
          have hs := ((parseShape_ok_iff lib _ _).mp h4).1
          rcases h with ⟨e, he⟩ | ⟨e, he⟩ | ⟨e, he⟩ | ⟨hc, hsq⟩
          · rw [h1] at he; cases he
          · rw [h2] at he; cases he
          · rw [h3] at he; cases he
          · rcases hs with hs | hs
            · exact hc hs
            · exact hsq hs

/-- C4. The shape is accepted exactly when the lower-cased `isCircle` string is
`circle` or `square`; every other value, the empty string included, is rejected
(the `log.Fatal` of line 58); and on acceptance the circle query is the one
built exactly when the lower-cased value is `circle`. -/
theorem parseShape_spec (lib : Library) (isCircleStr : String) :
    ((∃ isCircle, parseShape lib isCircleStr = .ok isCircle) ↔
      (strings.ToLower lib isCircleStr = "circle" ∨
        strings.ToLower lib isCircleStr = "square")) ∧
    (¬ (strings.ToLower lib isCircleStr = "circle" ∨
        strings.ToLower lib isCircleStr = "square") →
      parseShape lib isCircleStr = .error .isCircle) ∧
    parseShape lib "" = .error .isCircle ∧
    (∀ isCircle, parseShape lib isCircleStr = .ok isCircle →
      (isCircle = true ↔ strings.ToLower lib isCircleStr = "circle") ∧
      ∀ latitude longitude radius,
        buildQuery ⟨latitude, longitude, radius, isCircle⟩ =
          if strings.ToLower lib isCircleStr = "circle" then
            fmt.Sprintf circleFormat [longitude, latitude, longitude, latitude, radius]
          else
            fmt.Sprintf squareFormat
              [longitude, latitude,
               (calculateSquareCoordinates longitude latitude radius).1,
               (calculateSquareCoordinates longitude latitude radius).2.1,
               (calculateSquareCoordinates longitude latitude radius).2.2.1,
               (calculateSquareCoordinates longitude latitude radius).2.2.2]) := by
  refine ⟨?_, ?_, ?_, ?_⟩
  · constructor
    · rintro ⟨b, hb⟩
      exact ((parseShape_ok_iff lib _ _).mp hb).1
    · intro h
      refine ⟨decide (strings.ToLower lib isCircleStr = "circle"), ?_⟩
      rw [parseShape_ok_iff]
      exact ⟨h, by simp⟩
  · intro h
    rw [parseShape_error_iff]
    exact ⟨rfl, fun hc => h (Or.inl hc), fun hs => h (Or.inr hs)⟩
  · rw [parseShape_error_iff]
    refine ⟨rfl, ?_, ?_⟩ <;> simp [strings.ToLower]
  · intro b hb
    have hiff := ((parseShape_ok_iff lib _ _).mp hb).2
    refine ⟨hiff, ?_⟩
    intro latitude longitude radius
    unfold buildQuery
    by_cases hc : strings.ToLower lib isCircleStr = "circle"
    · rw [if_pos hc]
      have hb' : b = true := hiff.mpr hc
      subst hb'
      simp
    · rw [if_neg hc]
      have hb' : b = false := by
        cases b
        · rfl
        · exact absurd (hiff.mp rfl) hc
      subst hb'
      simp

/-! ## Fatal errors -/

/-- C6, as the code has it. A request with an invalid parameter ends in the
`log.Fatal` of the first failing check: no response is written and the process
exits. -/
theorem invalid_parameter_is_fatal (lib : Library) (world : World) (r : Request)
    (h : InvalidParameter lib r) :
    ∃ site, site ∈ [FatalSite.latitude, .longitude, .radius, .isCircle] ∧
      spotsInAreaHandler lib world r = .fatal site := by
  obtain ⟨site, hmem, herr⟩ := parseParams_error_of_invalid lib r h
  refine ⟨site, hmem, ?_⟩
  unfold spotsInAreaHandler
  rw [herr]

/-- Witness for C6: the shape `triangle`. -/
theorem invalid_parameter_is_fatal_witness :
    InvalidParameter sampleLibrary ⟨"51.5", "-0.12", "500", "triangle"⟩ ∧
    ∃ site, site ∈ [FatalSite.latitude, .longitude, .radius, .isCircle] ∧
      spotsInAreaHandler sampleLibrary (worldWith []) ⟨"51.5", "-0.12", "500", "triangle"⟩ =
        .fatal site :=
  ⟨Or.inr (Or.inr (Or.inr (by decide))),
   invalid_parameter_is_fatal sampleLibrary (worldWith []) _
     (Or.inr (Or.inr (Or.inr (by decide))))⟩

/-- Counterexample to C6 as stated: for the shape `triangle`, and for the
latitude `abc`, no library and no world make the handler answer with status
400; the outcome is the fatal exit. -/
theorem invalid_parameter_no_400 :
    (¬ ∃ lib world body,
      spotsInAreaHandler lib world ⟨"51.5", "-0.12", "500", "triangle"⟩ = .response 400 body) ∧
    (¬ ∃ lib world body,
      spotsInAreaHandler lib world ⟨"abc", "-0.12", "500", "circle"⟩ = .response 400 body) ∧
    spotsInAreaHandler sampleLibrary (worldWith [])
      ⟨"51.5", "-0.12", "500", "triangle"⟩ = .fatal .isCircle ∧
    spotsInAreaHandler sampleLibrary (worldWith [])
      ⟨"abc", "-0.12", "500", "circle"⟩ = .fatal .latitude := by
  refine ⟨?_, ?_, by decide!, by decide!⟩
  · rintro ⟨lib, world, body, h⟩
    obtain ⟨site, _, hs⟩ := parseParams_error_of_invalid lib
      ⟨"51.5", "-0.12", "500", "triangle"⟩
      (Or.inr (Or.inr (Or.inr (by simp [strings.ToLower]; decide))))
    unfold spotsInAreaHandler at h
    rw [hs] at h
    cases h
  · rintro ⟨lib, world, body, h⟩
    obtain ⟨site, _, hs⟩ := parseParams_error_of_invalid lib
      ⟨"abc", "-0.12", "500", "circle"⟩ (Or.inl ⟨.ErrSyntax, by decide!⟩)
    unfold spotsInAreaHandler at h
    rw [hs] at h
    cases h

/-! ## Serialisation -/

theorem json.marshalSpot_keys (s : Spot) (obj : json.Object)
    (h : json.marshalSpot s = .ok obj) : obj.map Prod.fst = encodedKeys := by
  unfold json.marshalSpot at h
  cases hr : json.marshalFloat s.Rating with
  | error e => rw [hr] at h; cases h
  | ok rating =>
    cases hd : json.marshalFloat s.Distance with
    | error e => rw [hr, hd] at h; cases h
    | ok distance =>
      rw [hr, hd] at h
      injection h with h
      subst h
      rfl

theorem json.marshalSpots_keys (spots : List Spot) (objs : List json.Object)
    (h : json.marshalSpots spots = .ok objs) :
    ∀ obj ∈ objs, obj.map Prod.fst = encodedKeys := by
  induction spots generalizing objs with
  | nil =>
    unfold json.marshalSpots at h
    injection h with h
    subst h
    simp
  | cons s rest ih =>
    unfold json.marshalSpots at h
    cases hs : json.marshalSpot s with
    | error e => rw [hs] at h; cases h
    | ok obj =>
      cases hrest : json.marshalSpots rest with
      | error e => rw [hs, hrest] at h; cases h
      | ok os =>
        rw [hs, hrest] at h
        injection h with h
        subst h
        intro o ho
        rcases List.mem_cons.mp ho with rfl | ho
        · exact json.marshalSpot_keys s _ hs
        · exact ih os hrest o ho

theorem json.Marshal_array_keys (v : Spots) (items : List json.Object)
    (h : json.Marshal v = .ok (.array items)) :
    ∀ obj ∈ items, obj.map Prod.fst = encodedKeys := by
  unfold json.Marshal at h
  cases v with
  | nil => cases h
  | cons s rest =>
    simp only [] at h
    cases hm : json.marshalSpots (s :: rest) with
    | error e => rw [hm] at h; cases h
    | ok objs =>
      rw [hm] at h
      have : objs = items := by
        simpa [Except.map] using h
      subst this
      exact json.marshalSpots_keys _ _ hm

/-- The steps of the handler after a successful validation, when the world
cooperates. -/
theorem spotsInAreaHandler_of_rows (lib : Library) (world : World) (r : Request) (p : Params)
    (rows : List (Option Spot)) (spotList : List Spot)
    (hp : parseParams lib r = .ok p) (hd : world.dotenvLoads = true)
    (hs : world.sqlOpens = true) (hq : world.dbQuery (buildQuery p) = some rows)
    (hrows : scanRows rows = some spotList) :
    spotsInAreaHandler lib world r =
      match json.Marshal (rankSpots lib spotList) with
      | .ok body => .response 200 (some body)
      | .error _ => .response 200 none := by
  unfold spotsInAreaHandler
  simp only [hp, hd, hs, hq, hrows, Bool.not_true, Bool.false_eq_true, if_false]

theorem spotsInAreaHandler_response_body (lib : Library) (world : World) (r : Request)
    (status : Nat) (body : json.Value)
    (h : spotsInAreaHandler lib world r = .response status (some body)) :
    status = 200 ∧ ∃ spotList, json.Marshal (rankSpots lib spotList) = .ok body := by
  unfold spotsInAreaHandler at h
  cases hp : parseParams lib r with
  | error e => rw [hp] at h; cases h
  | ok p =>
    rw [hp] at h
    simp only [] at h
    split at h
    · cases h
    · split at h
      · cases h
      · split at h
        · cases h
        · split at h
          · cases h
          · rename_i spotList _
            split at h
            · rename_i b hb
              injection h with h1 h2
              injection h2 with h2
              subst h2
              exact ⟨h1.symm, spotList, hb⟩
            · cases h

theorem scanRows_length (rows : List (Option Spot)) (spotList : List Spot)
    (h : scanRows rows = some spotList) : spotList.length = rows.length := by
  induction rows generalizing spotList with
  | nil =>
    simp only [scanRows, Option.some.injEq] at h
    subst h
    rfl
  | cons row rows ih =>
    cases row with
    | none => simp [scanRows] at h
    | some row =>
      simp only [scanRows, Option.map_eq_some'] at h
      obtain ⟨l, hl, rfl⟩ := h
      simp [ih l hl]

/-- On a request whose shape is an ASCII string, and in a world whose store
answers with at most twelve rows, the outcome does not depend on the library
parameters. -/
theorem spotsInAreaHandler_lib_indep (lib lib' : Library) (world : World) (r : Request)
    (hshape : r.isCircle.data.all (fun c => c.toNat < 128) = true)
    (hrows : ∀ q rows, world.dbQuery q = some rows → rows.length ≤ 12) :
    spotsInAreaHandler lib world r = spotsInAreaHandler lib' world r := by
  unfold spotsInAreaHandler
  rw [parseParams_lib_indep lib lib' r hshape]
  cases parseParams lib' r with
  | error e => rfl
  | ok p =>
    simp only []
    cases hq : world.dbQuery (buildQuery p) with
    | none => rfl
    | some rows =>
      cases hs : scanRows rows with
      | none => simp only [hs]
      | some spotList =>
        have hlen : spotList.length ≤ 12 := by
          rw [scanRows_length rows spotList hs]
          exact hrows _ _ hq
        simp only [hs, rankSpots_short lib spotList hlen, rankSpots_short lib' spotList hlen]

/-- A slice with at least one element encodes as an array. -/
theorem json.Marshal_cons_array (s : Spot) (rest : List Spot) (body : json.Value)
    (h : json.Marshal (s :: rest) = .ok body) :
    ∃ items, body = .array items ∧ items.length = (s :: rest).length := by
  unfold json.Marshal at h
  simp only [] at h
  cases hm : json.marshalSpots (s :: rest) with
  | error e => rw [hm] at h; cases h
  | ok objs =>
    rw [hm] at h
    refine ⟨objs, by simpa [Except.map] using h.symm, ?_⟩
    clear h
    generalize s :: rest = l at hm
    induction l generalizing objs with
    | nil =>
      simp only [json.marshalSpots, Except.ok.injEq] at hm
      subst hm
      rfl
    | cons a l ih =>
      unfold json.marshalSpots at hm
      cases ha : json.marshalSpot a with
      | error e => rw [ha] at hm; cases hm
      | ok obj =>
        cases hl : json.marshalSpots l with
        | error e => rw [ha, hl] at hm; cases hm
        | ok os =>
          rw [ha, hl] at hm
          injection hm with hm
          subst hm
          simp [ih os hl]

/-- C7 at the code. When validation passes, the configuration loads, the
connection opens and the store returns no rows, the handler answers with status
200 and the JSON value `null`. -/
theorem empty_result_is_null (lib : Library) (world : World) (r : Request) (p : Params)
    (hp : parseParams lib r = .ok p) (hd : world.dotenvLoads = true)
    (hs : world.sqlOpens = true) (hq : world.dbQuery (buildQuery p) = some []) :
    spotsInAreaHandler lib world r = .response 200 (some .null) ∧
    spotsInAreaHandler lib world r ≠ .response 200 (some (.array [])) := by
  have h := spotsInAreaHandler_of_rows lib world r p [] [] hp hd hs hq rfl
  have hrank : rankSpots lib [] = [] := by
    rw [rankSpots_short lib [] (by decide)]
    rfl
  rw [hrank] at h
  rw [h]
  exact ⟨rfl, by decide⟩

/-- Witness for C7: a valid circle request in a world whose store is empty. -/
theorem empty_result_is_null_witness :
    parseParams sampleLibrary ⟨"51.5", "-0.12", "500", "circle"⟩ =
      .ok ⟨.fin 51.5, Float64.ofRat (-0.12), .fin 500, true⟩ ∧
    spotsInAreaHandler sampleLibrary (worldWith []) ⟨"51.5", "-0.12", "500", "circle"⟩ =
      .response 200 (some .null) ∧
    spotsInAreaHandler sampleLibrary (worldWith []) ⟨"51.5", "-0.12", "500", "circle"⟩ ≠
      .response 200 (some (.array [])) :=
  ⟨by decide!,
   empty_result_is_null sampleLibrary (worldWith []) _ ⟨.fin 51.5, Float64.ofRat (-0.12), .fin 500, true⟩
     (by decide!) rfl rfl rfl⟩

/-- C8, as the code has it. Every object of the array the handler writes has
exactly the members `id`, `name`, `location`, `website`, `description`,
`rating` and `Distance`, in this order: the `Distance` field, which has no tag,
is written under its field name. -/
theorem response_object_keys (lib : Library) (world : World) (r : Request) (status : Nat)
    (items : List json.Object)
    (h : spotsInAreaHandler lib world r = .response status (some (.array items))) :
    ∀ obj ∈ items,
      obj.map Prod.fst =
        ["id", "name", "location", "website", "description", "rating", "Distance"] := by
  obtain ⟨_, spotList, hm⟩ := spotsInAreaHandler_response_body lib world r status _ h
  exact json.Marshal_array_keys _ items hm

/-- Witness for C8: one spot in the store. -/
theorem response_object_keys_witness :
    spotsInAreaHandler sampleLibrary (worldWith [spotAt "A" 70 3])
        ⟨"51.5", "-0.12", "500", "circle"⟩ =
      .response 200 (some (.array [[("id", .string "A"), ("name", .string "A"),
        ("location", .string ""), ("website", .string ""), ("description", .string ""),
        ("rating", .number 3), ("Distance", .number 70)]])) ∧
    ∀ obj ∈ [[("id", json.Scalar.string "A"), ("name", .string "A"),
        ("location", .string ""), ("website", .string ""), ("description", .string ""),
        ("rating", .number 3), ("Distance", .number 70)]],
      obj.map Prod.fst =
        ["id", "name", "location", "website", "description", "rating", "Distance"] :=
  ⟨by decide!,
   response_object_keys sampleLibrary (worldWith [spotAt "A" 70 3])
     ⟨"51.5", "-0.12", "500", "circle"⟩ 200 _ (by decide!)⟩

/-- Counterexample to C8 as stated: with one spot in the store, the object the
handler writes has a member `Distance`, so its members are not the six named by
the specification. -/
theorem response_object_has_distance :
    ∃ obj : json.Object,
      (∀ lib, spotsInAreaHandler lib (worldWith [spotAt "A" 70 3])
        ⟨"51.5", "-0.12", "500", "circle"⟩ = .response 200 (some (.array [obj]))) ∧
      obj.map Prod.fst ≠ specifiedKeys ∧
      obj.lookup "Distance" = some (.number 70) := by
  refine ⟨[("id", .string "A"), ("name", .string "A"),
    ("location", .string ""), ("website", .string ""), ("description", .string ""),
    ("rating", .number 3), ("Distance", .number 70)], ?_, by decide, by decide!⟩
  intro lib
  rw [spotsInAreaHandler_lib_indep lib sampleLibrary (worldWith [spotAt "A" 70 3]) _ (by decide)
    (by intro q rows h; simp only [worldWith, Option.some.injEq] at h; rw [← h]; decide)]
  decide!

/-! ## What `strconv.ParseFloat` accepts -/

theorem strconv.commonPrefixLen_le (s word : List Char) :
    strconv.commonPrefixLenIgnoreCase s word ≤ s.length := by
  induction s generalizing word with
  | nil => simp [strconv.commonPrefixLenIgnoreCase]
  | cons c s ih =>
    cases word with
    | nil => simp [strconv.commonPrefixLenIgnoreCase]
    | cons p word =>
      unfold strconv.commonPrefixLenIgnoreCase
      split
      · exact Nat.zero_le _
      · simpa using ih word

theorem strconv.commonPrefixLen_take (s word : List Char) :
    (s.take (strconv.commonPrefixLenIgnoreCase s word)).map toLowerASCII =
      word.take (strconv.commonPrefixLenIgnoreCase s word) := by
  induction s generalizing word with
  | nil => simp [strconv.commonPrefixLenIgnoreCase]
  | cons c s ih =>
    cases word with
    | nil => simp [strconv.commonPrefixLenIgnoreCase]
    | cons p word =>
      unfold strconv.commonPrefixLenIgnoreCase
      split
      · simp
      · rename_i hcp
        have hcp' : toLowerASCII c = p := by simpa using hcp
        simp [hcp', ih word]

/-- A string that `commonPrefixLenIgnoreCase` matches over its whole length is,
lower-cased, the beginning of the word of that length. -/
theorem strconv.commonPrefixLen_full (s word : List Char)
    (h : strconv.commonPrefixLenIgnoreCase s word = s.length) :
    s.map toLowerASCII = word.take s.length := by
  have := strconv.commonPrefixLen_take s word
  rw [h, List.take_length] at this
  exact this

theorem strconv.infinityLen_full (s : List Char)
    (h : strconv.infinityLen s = some s.length) :
    s.map toLowerASCII = "inf".data ∨ s.map toLowerASCII = "infinity".data := by
  have hle := strconv.commonPrefixLen_le s "infinity".data
  unfold strconv.infinityLen at h
  simp only [] at h
  by_cases hmid : 3 < strconv.commonPrefixLenIgnoreCase s "infinity".data ∧
      strconv.commonPrefixLenIgnoreCase s "infinity".data < 8
  · rw [if_pos hmid] at h
    simp only [true_or, if_true, Option.some.injEq] at h
    omega
  · rw [if_neg hmid] at h
    by_cases hn : strconv.commonPrefixLenIgnoreCase s "infinity".data = 3 ∨
        strconv.commonPrefixLenIgnoreCase s "infinity".data = 8
    · rw [if_pos hn] at h
      injection h with h
      have hfull := strconv.commonPrefixLen_full s _ h
      rw [hfull, ← h]
      rcases hn with hn | hn
      · left; rw [hn]; rfl
      · right; rw [hn]; rfl
    · rw [if_neg hn] at h
      cases h

/-- A string that `special` reads to its end is one of the special spellings. -/
theorem strconv.special_full (s : List Char) (f : Float64)
    (h : strconv.special s = some (f, s.length)) :
    s.map toLowerASCII ∈
      ["nan", "inf", "+inf", "-inf", "infinity", "+infinity", "-infinity"].map String.data := by
  cases s with
  | nil => simp [strconv.special] at h
  | cons c rest =>
    unfold strconv.special at h
    simp only [] at h
    split at h
    · rename_i hc
      cases hi : strconv.infinityLen rest with
      | none => rw [hi] at h; cases h
      | some n =>
        rw [hi] at h
        simp only [Option.map_some', Option.some.injEq, Prod.mk.injEq, List.length_cons,
          add_left_inj] at h
        rw [h.2] at hi
        have hrest := strconv.infinityLen_full rest hi
        rcases hc with rfl | rfl <;> rcases hrest with hr | hr <;>
          simp [List.map_cons, hr, toLowerASCII]
    · split at h
      · cases hi : strconv.infinityLen (c :: rest) with
        | none => rw [hi] at h; cases h
        | some n =>
          rw [hi] at h
          simp only [Option.map_some', Option.some.injEq, Prod.mk.injEq] at h
          rw [h.2] at hi
          rcases strconv.infinityLen_full (c :: rest) hi with hr | hr <;>
            rw [hr] <;> decide
      · split at h
        · split at h
          · rename_i hn
            simp only [Option.some.injEq, Prod.mk.injEq] at h
            have hfull : strconv.commonPrefixLenIgnoreCase (c :: rest) "nan".data =
                (c :: rest).length := by rw [hn]; exact h.2
            have := strconv.commonPrefixLen_full _ _ hfull
            rw [this, ← h.2]
            decide
          · cases h
        · cases h

/-- A value that `strconv.ParseFloat` returns without error is finite unless the
string is one of the special spellings. -/
theorem strconv.ParseFloat_nonfinite (s : String) (v : Float64)
    (h : strconv.ParseFloat s = .ok v) (hv : v.isFinite = false) :
    strconv.isSpecialSpelling s = true := by
  unfold strconv.ParseFloat at h
  split at h
  · rename_i f n hsp
    split at h
    · cases h
    · rename_i hn
      have hn' : n = s.data.length := by simpa using hn
      subst hn'
      simpa [strconv.isSpecialSpelling] using strconv.special_full s.data f hsp
  · split at h
    · cases h
    · split at h
      · cases h
      · split at h
        · cases h
        · rename_i hfin
          injection h with h
          subst h
          exact absurd hv hfin

theorem toLowerASCII_upper_cases (c : Char) (h : 'A' ≤ c ∧ c ≤ 'Z') :
    c ∈ "ABCDEFGHIJKLMNOPQRSTUVWXYZ".data := by
  have h1 : 65 ≤ c.toNat := h.1
  have h2 : c.toNat ≤ 90 := h.2
  have hc : c = Char.ofNat c.toNat := (Char.ofNat_toNat c).symm
  generalize c.toNat = n at h1 h2 hc
  subst hc
  interval_cases n <;> decide

/-- The characters that lower-case to one of the first characters of the
special spellings. -/
theorem toLowerASCII_first (c x : Char) (hx : x ∈ ['n', 'i', '+', '-'])
    (h : toLowerASCII c = x) :
    c = x ∨ (x = 'n' ∧ c = 'N') ∨ (x = 'i' ∧ c = 'I') := by
  by_cases hu : 'A' ≤ c ∧ c ≤ 'Z'
  · have hmem := toLowerASCII_upper_cases c hu
    simp only [List.mem_cons, List.mem_singleton, List.not_mem_nil, or_false] at hmem hx
    rcases hx with rfl | rfl | rfl | rfl <;>
      rcases hmem with rfl | rfl | rfl | rfl | rfl | rfl | rfl | rfl | rfl | rfl | rfl | rfl |
        rfl | rfl | rfl | rfl | rfl | rfl | rfl | rfl | rfl | rfl | rfl | rfl | rfl | rfl <;>
      first
      | (exact absurd h (by decide))
      | (right; left; exact ⟨rfl, rfl⟩)
      | (right; right; exact ⟨rfl, rfl⟩)
  · left
    unfold toLowerASCII at h
    rw [if_neg hu] at h
    exact h

theorem strconv.commonPrefixLen_of_map (s word : List Char)
    (h : s.map toLowerASCII = word.take s.length) :
    strconv.commonPrefixLenIgnoreCase s word = s.length := by
  induction s generalizing word with
  | nil => simp [strconv.commonPrefixLenIgnoreCase]
  | cons c s ih =>
    cases word with
    | nil => simp at h
    | cons p word =>
      simp only [List.map_cons, List.length_cons, List.take_succ_cons, List.cons.injEq] at h
      unfold strconv.commonPrefixLenIgnoreCase
      rw [if_neg (by simpa using h.1), ih word h.2]
      rfl

theorem strconv.infinityLen_of_map (s : List Char)
    (h : s.map toLowerASCII = "inf".data ∨ s.map toLowerASCII = "infinity".data) :
    strconv.infinityLen s = some s.length := by
  have hlen : s.length = 3 ∨ s.length = 8 := by
    rcases h with h | h
    · left; simpa using congrArg List.length h
    · right; simpa using congrArg List.length h
  have hcpl : strconv.commonPrefixLenIgnoreCase s "infinity".data = s.length := by
    apply strconv.commonPrefixLen_of_map
    rcases h with h | h
    · rw [h, show s.length = 3 by simpa using congrArg List.length h]; rfl
    · rw [h, show s.length = 8 by simpa using congrArg List.length h]; rfl
  unfold strconv.infinityLen
  simp only [hcpl]
  rcases hlen with hl | hl <;> simp [hl]

/-- Every special spelling is read by `special` to its end, as `NaN` or an
infinity. -/
theorem strconv.special_of_spelling (s : List Char)
    (h : s.map toLowerASCII ∈
      ["nan", "inf", "+inf", "-inf", "infinity", "+infinity", "-infinity"].map String.data) :
    ∃ v, strconv.special s = some (v, s.length) ∧ v.isFinite = false := by
  cases s with
  | nil => simp at h
  | cons c rest =>
    simp only [List.map_cons, List.mem_cons, List.mem_singleton, List.not_mem_nil,
      or_false, List.map_nil, List.cons.injEq] at h
    have hlenr : ∀ w : List Char, List.map toLowerASCII rest = w → rest.length = w.length :=
      fun w hw => by rw [← hw, List.length_map]
    rcases h with ⟨hc, hr⟩ | ⟨hc, hr⟩ | ⟨hc, hr⟩ | ⟨hc, hr⟩ | ⟨hc, hr⟩ | ⟨hc, hr⟩ | ⟨hc, hr⟩
    · have hcpl : strconv.commonPrefixLenIgnoreCase (c :: rest) "nan".data = 3 := by
        rw [strconv.commonPrefixLen_of_map]
        · simp [hlenr _ hr]
        · simp [hc, hr, hlenr _ hr]
      refine ⟨.nan, ?_, rfl⟩
      rcases toLowerASCII_first c 'n' (by decide) hc with rfl | ⟨_, rfl⟩ | ⟨h0, _⟩
      · simp [strconv.special, hcpl, hlenr _ hr]
      · simp [strconv.special, hcpl, hlenr _ hr]
      · exact absurd h0 (by decide)
    · have hinf := strconv.infinityLen_of_map (c :: rest) (by simp [hc, hr])
      refine ⟨.posInf, ?_, rfl⟩
      rcases toLowerASCII_first c 'i' (by decide) hc with rfl | ⟨h0, _⟩ | ⟨_, rfl⟩
      · simp [strconv.special, hinf]
      · exact absurd h0 (by decide)
      · simp [strconv.special, hinf]
    · have hinf := strconv.infinityLen_of_map rest (by simp [hr])
      refine ⟨.posInf, ?_, rfl⟩
      rcases toLowerASCII_first c '+' (by decide) hc with rfl | ⟨h0, _⟩ | ⟨h0, _⟩
      · simp [strconv.special, hinf]
      · exact absurd h0 (by decide)
      · exact absurd h0 (by decide)
    · have hinf := strconv.infinityLen_of_map rest (by simp [hr])
      refine ⟨.negInf, ?_, rfl⟩
      rcases toLowerASCII_first c '-' (by decide) hc with rfl | ⟨h0, _⟩ | ⟨h0, _⟩
      · simp [strconv.special, hinf]
      · exact absurd h0 (by decide)
      · exact absurd h0 (by decide)
    · have hinf := strconv.infinityLen_of_map (c :: rest) (by simp [hc, hr])
      refine ⟨.posInf, ?_, rfl⟩
      rcases toLowerASCII_first c 'i' (by decide) hc with rfl | ⟨h0, _⟩ | ⟨_, rfl⟩
      · simp [strconv.special, hinf]
      · exact absurd h0 (by decide)
      · simp [strconv.special, hinf]
    · have hinf := strconv.infinityLen_of_map rest (by simp [hr])
      refine ⟨.posInf, ?_, rfl⟩
      rcases toLowerASCII_first c '+' (by decide) hc with rfl | ⟨h0, _⟩ | ⟨h0, _⟩
      · simp [strconv.special, hinf]
      · exact absurd h0 (by decide)
      · exact absurd h0 (by decide)
    · have hinf := strconv.infinityLen_of_map rest (by simp [hr])
      refine ⟨.negInf, ?_, rfl⟩
      rcases toLowerASCII_first c '-' (by decide) hc with rfl | ⟨h0, _⟩ | ⟨h0, _⟩
      · simp [strconv.special, hinf]
      · exact absurd h0 (by decide)
      · exact absurd h0 (by decide)


/-- The strings for which `strconv.ParseFloat` returns `NaN` or an infinity are
exactly the special spellings. -/
theorem strconv.ParseFloat_nonfinite_iff (s : String) :
    (∃ v, strconv.ParseFloat s = .ok v ∧ v.isFinite = false) ↔
      strconv.isSpecialSpelling s = true := by
  constructor
  · rintro ⟨v, hv, hf⟩
    exact strconv.ParseFloat_nonfinite s v hv hf
  · intro h
    obtain ⟨v, hv, hf⟩ := strconv.special_of_spelling s.data
      (by simpa [strconv.isSpecialSpelling] using h)
    refine ⟨v, ?_, hf⟩
    unfold strconv.ParseFloat
    rw [hv]
    simp

theorem strconv.ParseFloat_ok_nonfinite_iff (s : String) (v : Float64)
    (h : strconv.ParseFloat s = .ok v) :
    v.isFinite = false ↔ strconv.isSpecialSpelling s = true := by
  rw [← strconv.ParseFloat_nonfinite_iff]
  constructor
  · intro hv
    exact ⟨v, h, hv⟩
  · rintro ⟨w, hw, hf⟩
    rw [h] at hw
    injection hw with hw
    rw [hw]
    exact hf

/-- C5, as the code has it. A request passes validation only if
`strconv.ParseFloat` accepts its latitude, longitude and radius, and the parsed
values are the ones it returns: each is a finite number, except exactly when
the string spells, in any case, `NaN` or an optionally signed `Inf` or
`Infinity`. A latitude, longitude or radius that `ParseFloat` rejects makes
validation fail; `abc` and the empty string are rejected, `NaN` and `Inf` are
accepted. -/
theorem parseParams_values (lib : Library) (r : Request) :
    (∀ p, parseParams lib r = .ok p →
      (strconv.ParseFloat r.latitude = .ok p.latitude ∧
       strconv.ParseFloat r.longitude = .ok p.longitude ∧
       strconv.ParseFloat r.radius = .ok p.radius) ∧
      (p.latitude.isFinite = false ↔ strconv.isSpecialSpelling r.latitude = true) ∧
      (p.longitude.isFinite = false ↔ strconv.isSpecialSpelling r.longitude = true) ∧
      (p.radius.isFinite = false ↔ strconv.isSpecialSpelling r.radius = true)) ∧
    (((∃ e, strconv.ParseFloat r.latitude = .error e) ∨
      (∃ e, strconv.ParseFloat r.longitude = .error e) ∨
      (∃ e, strconv.ParseFloat r.radius = .error e)) →
      ∃ site, site ∈ [FatalSite.latitude, .longitude, .radius] ∧
        parseParams lib r = .error site) ∧
    strconv.ParseFloat "abc" = .error .ErrSyntax ∧
    strconv.ParseFloat "" = .error .ErrSyntax ∧
    strconv.ParseFloat "NaN" = .ok .nan ∧
    strconv.ParseFloat "Inf" = .ok .posInf := by
  refine ⟨?_, ?_, by decide!, by decide!, by decide!, by decide!⟩
  · intro p hp
    obtain ⟨h1, h2, h3, _⟩ := (parseParams_ok_iff lib r p).mp hp
    exact ⟨⟨h1, h2, h3⟩, strconv.ParseFloat_ok_nonfinite_iff _ _ h1,
      strconv.ParseFloat_ok_nonfinite_iff _ _ h2, strconv.ParseFloat_ok_nonfinite_iff _ _ h3⟩
  · intro h
    unfold parseParams
    cases h1 : strconv.ParseFloat r.latitude with
    | error e => exact ⟨_, by simp, rfl⟩
    | ok a =>
      cases h2 : strconv.ParseFloat r.longitude with
      | error e => exact ⟨_, by simp, rfl⟩
      | ok b =>
        cases h3 : strconv.ParseFloat r.radius with
        | error e => exact ⟨_, by simp, rfl⟩
        | ok c =>
          exfalso
          rcases h with ⟨e, he⟩ | ⟨e, he⟩ | ⟨e, he⟩
          · rw [h1] at he; cases he
          · rw [h2] at he; cases he
          · rw [h3] at he; cases he

/-- Counterexample to C5 as stated: the latitude `NaN` and the radius `Inf` pass
validation, and the parsed latitude and radius are not finite. -/
theorem parseParams_accepts_nan :
    (∀ lib, parseParams lib ⟨"NaN", "-0.12", "Inf", "circle"⟩ =
      .ok ⟨.nan, Float64.ofRat (-0.12), .posInf, true⟩) ∧
    Float64.nan.isFinite = false ∧ Float64.posInf.isFinite = false := by
  refine ⟨?_, rfl, rfl⟩
  intro lib
  rw [parseParams_lib_indep lib sampleLibrary _ (by decide)]
  decide!

/-! ## The SQL text -/

theorem fmt.digitChar_not_delimiter (n : Nat) (h : n < 10) :
    fmt.isDelimiter (Nat.digitChar n) = false := by
  interval_cases n <;> decide

theorem fmt.toDigitsCore_not_delimiter (fuel n : Nat) (ds : List Char)
    (h : ∀ c ∈ ds, fmt.isDelimiter c = false) :
    ∀ c ∈ Nat.toDigitsCore 10 fuel n ds, fmt.isDelimiter c = false := by
  induction fuel generalizing n ds with
  | zero => simpa [Nat.toDigitsCore] using h
  | succ fuel ih =>
    have hd : ∀ c ∈ Nat.digitChar (n % 10) :: ds, fmt.isDelimiter c = false := by
      intro c hc
      rcases List.mem_cons.mp hc with rfl | hc
      · exact fmt.digitChar_not_delimiter _ (Nat.mod_lt _ (by decide))
      · exact h c hc
    unfold Nat.toDigitsCore
    simp only []
    split
    · exact hd
    · exact ih _ _ hd

theorem fmt.toDigits_not_delimiter (n : Nat) :
    ∀ c ∈ Nat.toDigits 10 n, fmt.isDelimiter c = false :=
  fmt.toDigitsCore_not_delimiter _ _ [] (by simp)

/-- What `%f` prints contains no blank, closing bracket or comma. -/
theorem fmt.formatF_not_delimiter (prec : Nat) (v : Float64) :
    ∀ c ∈ fmt.formatF prec v, fmt.isDelimiter c = false := by
  cases v with
  | nan => show ∀ c ∈ "NaN".data, fmt.isDelimiter c = false; decide
  | posInf => show ∀ c ∈ "+Inf".data, fmt.isDelimiter c = false; decide
  | negInf => show ∀ c ∈ "-Inf".data, fmt.isDelimiter c = false; decide
  | negZero =>
    intro c hc
    unfold fmt.formatF at hc
    rcases List.mem_cons.mp hc with rfl | hc
    · decide
    · rcases List.mem_cons.mp hc with rfl | hc
      · decide
      · split at hc
        · cases hc
        · rcases List.mem_cons.mp hc with rfl | hc
          · decide
          · unfold fmt.zeroPadded at hc
            simp only [List.mem_append, List.mem_replicate] at hc
            rcases hc with ⟨_, rfl⟩ | hc
            · decide
            · exact fmt.toDigits_not_delimiter _ c hc
  | fin q =>
    intro c hc
    unfold fmt.formatF at hc
    simp only [List.mem_append] at hc
    rcases hc with (hc | hc) | hc
    · split at hc
      · simp only [List.mem_singleton] at hc
        subst hc
        decide
      · cases hc
    · exact fmt.toDigits_not_delimiter _ c hc
    · split at hc
      · cases hc
      · rcases List.mem_cons.mp hc with rfl | hc
        · decide
        · unfold fmt.zeroPadded at hc
          simp only [List.mem_append, List.mem_replicate] at hc
          rcases hc with ⟨_, rfl⟩ | hc
          · decide
          · exact fmt.toDigits_not_delimiter _ c hc

/-- Two texts that each consist of a delimiter-free part followed by a
delimiter agree only if the parts agree. -/
theorem fmt.split_at_delimiter (o o' t t' : List Char) (d d' : Char)
    (ho : ∀ c ∈ o, fmt.isDelimiter c = false) (ho' : ∀ c ∈ o', fmt.isDelimiter c = false)
    (hd : fmt.isDelimiter d = true) (hd' : fmt.isDelimiter d' = true)
    (h : o ++ d :: t = o' ++ d' :: t') : o = o' ∧ d :: t = d' :: t' := by
  induction o generalizing o' with
  | nil =>
    cases o' with
    | nil => exact ⟨rfl, h⟩
    | cons c o1 =>
      exfalso
      simp only [List.nil_append, List.cons_append, List.cons.injEq] at h
      have := ho' c (by simp)
      rw [← h.1, hd] at this
      cases this
  | cons c o1 ih =>
    cases o' with
    | nil =>
      exfalso
      simp only [List.nil_append, List.cons_append, List.cons.injEq] at h
      have := ho c (by simp)
      rw [h.1, hd'] at this
      cases this
    | cons c' o1' =>
      simp only [List.cons_append, List.cons.injEq] at h
      obtain ⟨h1, h2⟩ := ih o1' (fun x hx => ho x (by simp [hx]))
        (fun x hx => ho' x (by simp [hx])) h.2
      exact ⟨by rw [h.1, h1], h2⟩

theorem fmt.doPrintf_delimiter_head (e : Char) (rest : List Char) (args : List Float64)
    (he : fmt.isDelimiter e = true) :
    ∃ t, fmt.doPrintf (e :: rest) args = e :: t := by
  have hne : e ≠ '%' := by
    rintro rfl
    exact absurd he (by decide)
  cases rest with
  | nil => exact ⟨[], by simp [fmt.doPrintf]⟩
  | cons d rest =>
    refine ⟨fmt.doPrintf (d :: rest) args, ?_⟩
    rw [fmt.doPrintf.eq_def]
    simp [hne]

/-- The text `fmt.doPrintf` builds depends on the operands only through what
`%f` prints for them. -/
theorem fmt.doPrintf_congr (format : List Char) (args args' : List Float64)
    (h : args.map (fmt.formatF 6) = args'.map (fmt.formatF 6)) :
    fmt.doPrintf format args = fmt.doPrintf format args' := by
  induction format, args using fmt.doPrintf.induct generalizing args' with
  | case1 x => simp [fmt.doPrintf]
  | case2 c x => simp [fmt.doPrintf]
  | case3 c d format hcd a args ih =>
    cases args' with
    | nil => simp at h
    | cons a' args' =>
      simp only [List.map_cons, List.cons.injEq] at h
      rw [fmt.doPrintf.eq_def, fmt.doPrintf.eq_def (c :: d :: format)]
      simp only [hcd, and_self, if_true]
      rw [h.1, ih args' h.2]
  | case4 c d format hcd ih =>
    cases args' with
    | nil => rfl
    | cons a' args' => simp at h
  | case5 c d format args hcd ih =>
    rw [fmt.doPrintf.eq_def, fmt.doPrintf.eq_def (c :: d :: format)]
    simp only [hcd, if_false]
    rw [ih args' h]

/-- In a format whose verbs are each followed by a delimiter, the text
determines what `%f` printed for each operand. -/
theorem fmt.doPrintf_inj (format : List Char) (args args' : List Float64)
    (hfmt : fmt.delimited format = true)
    (hlen : args.length = fmt.verbs format) (hlen' : args'.length = fmt.verbs format)
    (h : fmt.doPrintf format args = fmt.doPrintf format args') :
    args.map (fmt.formatF 6) = args'.map (fmt.formatF 6) := by
  induction format, args using fmt.doPrintf.induct generalizing args' with
  | case1 x =>
    simp only [fmt.verbs, List.length_eq_zero] at hlen hlen'
    rw [hlen, hlen']
  | case2 c x =>
    simp only [fmt.verbs, List.length_eq_zero] at hlen hlen'
    rw [hlen, hlen']
  | case3 c d format hcd a args ih =>
    rw [fmt.verbs, if_pos hcd] at hlen hlen'
    rw [fmt.delimited.eq_def] at hfmt
    simp only [if_pos hcd] at hfmt
    cases args' with
    | nil => simp at hlen'
    | cons a' args' =>
      rw [fmt.doPrintf.eq_def, fmt.doPrintf.eq_def (c :: d :: format)] at h
      simp only [hcd, and_self, if_true] at h
      cases format with
      | nil => simp at hfmt
      | cons e rest =>
        simp only [Bool.and_eq_true] at hfmt
        obtain ⟨t, ht⟩ := fmt.doPrintf_delimiter_head e rest args hfmt.1
        obtain ⟨t', ht'⟩ := fmt.doPrintf_delimiter_head e rest args' hfmt.1
        rw [ht, ht'] at h
        obtain ⟨h1, h2⟩ := fmt.split_at_delimiter _ _ _ _ _ _
          (fmt.formatF_not_delimiter 6 a) (fmt.formatF_not_delimiter 6 a') hfmt.1 hfmt.1 h
        rw [← ht, ← ht'] at h2
        simp only [List.map_cons, List.cons.injEq]
        exact ⟨h1, ih args' hfmt.2 (by simpa using hlen) (by simpa using hlen') h2⟩
  | case4 c d format hcd ih =>
    rw [fmt.verbs, if_pos hcd] at hlen
    simp at hlen
  | case5 c d format args hcd ih =>
    rw [fmt.verbs, if_neg hcd] at hlen hlen'
    rw [fmt.delimited.eq_def] at hfmt
    simp only [if_neg hcd] at hfmt
    rw [fmt.doPrintf.eq_def, fmt.doPrintf.eq_def (c :: d :: format)] at h
    simp only [hcd, if_false, List.cons.injEq, true_and] at h
    exact ih args' hfmt hlen hlen' h

theorem buildQuery_eq_sprintf (p : Params) :
    buildQuery p =
      fmt.Sprintf (if p.isCircle then circleFormat else squareFormat) (queryOperands p) := by
  unfold buildQuery queryOperands
  cases p.isCircle <;> simp

theorem queryOperands_length (p : Params) :
    (queryOperands p).length =
      fmt.verbs (if p.isCircle then circleFormat else squareFormat).data := by
  unfold queryOperands
  cases p.isCircle
  · simp only [Bool.false_eq_true, if_false]
    have : fmt.verbs squareFormat.data = 6 := by decide!
    rw [this]
    rfl
  · simp only [if_true]
    have : fmt.verbs circleFormat.data = 5 := by decide!
    rw [this]
    rfl

/-- C9, as the code has it. The query builder writes the numeric values into
the SQL text with the verb `%f`: two validated requests in the same shape mode
get the same SQL text exactly when `%f` prints the same for each of their
operands (longitude, latitude and the radius in circle mode; longitude,
latitude and the four corners of the square in square mode). -/
theorem buildQuery_eq_iff (p p' : Params) (hmode : p.isCircle = p'.isCircle) :
    buildQuery p = buildQuery p' ↔
      (queryOperands p).map (fmt.formatF 6) = (queryOperands p').map (fmt.formatF 6) := by
  rw [buildQuery_eq_sprintf, buildQuery_eq_sprintf, ← hmode]
  unfold fmt.Sprintf
  constructor
  · intro h
    refine fmt.doPrintf_inj _ _ _ ?_ (queryOperands_length p) ?_ (congrArg String.data h)
    · cases p.isCircle <;> decide!
    · rw [queryOperands_length p', hmode]
  · intro h
    rw [fmt.doPrintf_congr _ _ _ h]

/-- Witness for C9: two circle requests that differ in the latitude. -/
theorem buildQuery_eq_iff_witness :
    (⟨.fin 51.5, Float64.ofRat (-0.12), .fin 500, true⟩ : Params).isCircle =
      (⟨Float64.ofRat 48.85, Float64.ofRat (-0.12), .fin 500, true⟩ : Params).isCircle ∧
    (buildQuery ⟨.fin 51.5, Float64.ofRat (-0.12), .fin 500, true⟩ =
        buildQuery ⟨Float64.ofRat 48.85, Float64.ofRat (-0.12), .fin 500, true⟩ ↔
      (queryOperands ⟨.fin 51.5, Float64.ofRat (-0.12), .fin 500, true⟩).map (fmt.formatF 6) =
        (queryOperands ⟨Float64.ofRat 48.85, Float64.ofRat (-0.12), .fin 500, true⟩).map (fmt.formatF 6)) :=
  ⟨rfl, buildQuery_eq_iff _ _ rfl⟩

/-- Counterexample to C9 as stated: two valid circle requests that differ in the
latitude get different SQL texts; the text of the first contains the latitude
and the longitude as `51.500000` and `-0.120000`. -/
theorem buildQuery_depends_on_latitude :
    (∀ lib, parseParams lib ⟨"51.5", "-0.12", "500", "circle"⟩ =
      .ok ⟨.fin 51.5, Float64.ofRat (-0.12), .fin 500, true⟩) ∧
    (∀ lib, parseParams lib ⟨"48.85", "-0.12", "500", "circle"⟩ =
      .ok ⟨Float64.ofRat 48.85, Float64.ofRat (-0.12), .fin 500, true⟩) ∧
    buildQuery ⟨.fin 51.5, Float64.ofRat (-0.12), .fin 500, true⟩ ≠
      buildQuery ⟨Float64.ofRat 48.85, Float64.ofRat (-0.12), .fin 500, true⟩ ∧
    buildQuery ⟨.fin 51.5, Float64.ofRat (-0.12), .fin 500, true⟩ =
      "SELECT * FROM (SELECT id, name, COALESCE(website, ''), coordinates, COALESCE(description, ''), rating, ST_Distance(coordinates::geography, 'SRID=4326;POINT(-0.120000 51.500000)'::geography) AS distance FROM public.\"MY_TABLE\" WHERE ST_DWithin(coordinates, 'SRID=4326;POINT(-0.120000 51.500000)'::geography, 500.000000)) AS subquery;" := by
  refine ⟨?_, ?_, by decide!, by decide!⟩
  · intro lib
    rw [parseParams_lib_indep lib sampleLibrary _ (by decide)]
    decide!
  · intro lib
    rw [parseParams_lib_indep lib sampleLibrary _ (by decide)]
    decide!
